import Mathlib

/-!
Verification development for the cli-hub MCP configuration engine
(`src-tauri/src`).  The Rust sources are shallowly embedded: JSON and TOML
values become inductive types, the `HashMap`/`serde_json::Map` containers
become association lists (quantifying over the list order covers every
iteration order of the Rust maps), and fallible code returns `Except`.
-/

namespace CliHub

/-! ## Strings

Rust's `str::trim` removes leading and trailing whitespace.  We model it on
the character list of the string (the Unicode whitespace set is modelled by
its ASCII part, which is all the configuration code ever meets). -/

def isWsChar (c : Char) : Bool :=
  c = ' ' || c = '\t' || c = '\n' || c = '\r'

def rustTrim (s : String) : String :=
  ⟨((s.data.dropWhile isWsChar).reverse.dropWhile isWsChar).reverse⟩

/-! ## JSON values (`serde_json::Value`)

Numbers: `serde_json` distinguishes integer (`i64`) and floating payloads.
Float payloads are only ever passed through verbatim by the embedded code,
never computed with, so they are carried as an opaque tag. -/

inductive JNum where
  | i (n : Int)
  | f (tag : Int)
deriving DecidableEq, Repr

inductive JValue where
  | null
  | b (v : Bool)
  | num (n : JNum)
  | s (v : String)
  | arr (xs : List JValue)
  | obj (kvs : List (String × JValue))
deriving Repr

/-! ## Association-list maps

`HashMap` and `serde_json::Map` are modelled as `List (String × α)`.
`lookupA` finds the first binding; `insertA` replaces the value of an
existing key in place and appends a fresh key (the behaviour of map
`insert`); `eraseA` removes the first binding of the key
(map `remove`). -/

def lookupA {α : Type} : List (String × α) → String → Option α
  | [], _ => none
  | (k, v) :: rest, key => if k = key then some v else lookupA rest key

def containsA {α : Type} (l : List (String × α)) (key : String) : Bool :=
  (lookupA l key).isSome

def insertA {α : Type} : List (String × α) → String → α → List (String × α)
  | [], key, v => [(key, v)]
  | (k, w) :: rest, key, v =>
    if k = key then (k, v) :: rest else (k, w) :: insertA rest key v

def eraseA {α : Type} (l : List (String × α)) (key : String) : List (String × α) :=
  l.filter (fun kv => !(kv.1 == key))

/-- Modify the value stored at the first binding of `key`, if any. -/
def modifyA {α : Type} : List (String × α) → String → (α → α) → List (String × α)
  | [], _, _ => []
  | (k, w) :: rest, key, f =>
    if k = key then (k, f w) :: rest else (k, w) :: modifyA rest key f

/-! ## JSON accessors (`Value::get`, `as_str`, `as_bool`, …) -/

def jGet : JValue → String → Option JValue
  | .obj kvs, key => lookupA kvs key
  | _, _ => none

def jAsStr : JValue → Option String
  | .s v => some v
  | _ => none

def jAsBool : JValue → Option Bool
  | .b v => some v
  | _ => none

def jAsObj : JValue → Option (List (String × JValue))
  | .obj kvs => some kvs
  | _ => none

def jAsArr : JValue → Option (List JValue)
  | .arr xs => some xs
  | _ => none

def jIsObj : JValue → Bool
  | .obj _ => true
  | _ => false

/-! ## Server spec validator (`mcp/validation.rs`, `validate_server_spec`) -/

def validate_server_spec (spec : JValue) : Except String Unit :=
  if !(jIsObj spec) then
    .error "spec must be a JSON object"
  else
    let t_opt := (jGet spec "type").bind jAsStr
    let is_stdio := (t_opt.map (fun t => t == "stdio")).getD true
    let is_http := (t_opt.map (fun t => t == "http")).getD false
    let is_sse := (t_opt.map (fun t => t == "sse")).getD false
    if !(is_stdio || is_http || is_sse) then
      .error "type must be stdio, http or sse"
    else if is_stdio && (rustTrim (((jGet spec "command").bind jAsStr).getD "")).isEmpty then
      .error "stdio server lacks command"
    else if is_http && (rustTrim (((jGet spec "url").bind jAsStr).getD "")).isEmpty then
      .error "http server lacks url"
    else if is_sse && (rustTrim (((jGet spec "url").bind jAsStr).getD "")).isEmpty then
      .error "sse server lacks url"
    else
      .ok ()

/-! ## Canonical store (`app_config.rs`: `McpApps`, `McpServer`) -/

inductive AppType where
  | claude
  | codex
  | gemini
deriving DecidableEq, Repr

structure McpApps where
  claude : Bool
  codex : Bool
  gemini : Bool
deriving DecidableEq, Repr

def McpApps.get_enabled_for (a : McpApps) (app : AppType) : Bool :=
  match app with
  | .claude => a.claude
  | .codex => a.codex
  | .gemini => a.gemini

def McpApps.set_enabled_for (a : McpApps) (app : AppType) (enabled : Bool) : McpApps :=
  match app with
  | .claude => { a with claude := enabled }
  | .codex => { a with codex := enabled }
  | .gemini => { a with gemini := enabled }

/-- Default `McpApps` (all three flags false, `Default` derive in Rust). -/
def McpApps.empty : McpApps := ⟨false, false, false⟩

structure McpServer where
  id : String
  name : String
  server : JValue
  apps : McpApps
  description : Option String
  homepage : Option String
  docs : Option String
  tags : List String
deriving Repr

/-- The unified canonical store `config.mcp.servers : HashMap<String, McpServer>`. -/
abbrev Store := List (String × McpServer)

/-! ## Importer merge step

`claude.rs` lines 42-70, `gemini.rs` lines 42-70 and `codex.rs` lines
185-213 are the same algorithm with a different client flag (spec §9 notes
the triplication); the embedding parameterizes over the client.  An
existing id only has this client's flag enabled (counted only when it was
false); a new id is inserted with exactly this client's flag set. -/

def importMergeStep (app : AppType) (id : String) (spec : JValue) (s : Store) :
    Store × Nat :=
  match lookupA s id with
  | some existing =>
    if existing.apps.get_enabled_for app then (s, 0)
    else (modifyA s id (fun srv => { srv with apps := srv.apps.set_enabled_for app true }), 1)
  | none =>
    (s ++ [(id, { id := id, name := id, server := spec,
                  apps := McpApps.empty.set_enabled_for app true,
                  description := none, homepage := none, docs := none,
                  tags := [] })], 1)

/-- Import loop of the JSON-family importers (`claude.rs`/`gemini.rs`
lines 34-71): validate each entry, skip invalid ones, merge the rest. -/
def importMergeList (app : AppType) : List (String × JValue) → Store → Store × Nat
  | [], s => (s, 0)
  | (id, spec) :: rest, s =>
    match validate_server_spec spec with
    | .error _ => importMergeList app rest s
    | .ok _ =>
      let step := importMergeStep app id spec s
      let r := importMergeList app rest step.1
      (r.1, step.2 + r.2)

/-- State of a JSON live file as seen by the importer.

Modelled from the spec: the `read_mcp_json` readers live in
`claude_mcp.rs` (absent from the snapshot) and, per the spec, a missing
live file yields no text (0 changes) while a syntactically invalid live
file is a hard error. `gemini_mcp.rs` confirms this shape. -/
inductive LiveJson where
  | missing
  | invalid
  | root (v : JValue)

/-- JSON-family importer (`import_from_claude` / `import_from_gemini`,
lines 18-78 of `claude.rs` / `gemini.rs`): read the live file, take the
`mcpServers` object (absent means 0 changes), merge each entry. -/
def importJsonFamily (app : AppType) (live : LiveJson) (s : Store) :
    Except String (Store × Nat) :=
  match live with
  | .missing => .ok (s, 0)
  | .invalid => .error "live file parse failure"
  | .root v =>
    match (jGet v "mcpServers").bind jAsObj with
    | none => .ok (s, 0)
    | some entries => .ok (importMergeList app entries s)

def import_from_claude (live : LiveJson) (s : Store) : Except String (Store × Nat) :=
  importJsonFamily .claude live s

def import_from_gemini (live : LiveJson) (s : Store) : Except String (Store × Nat) :=
  importJsonFamily .gemini live s

/-! ## TOML values

One inductive covers both `toml::Value` (used by the codex importer) and
`toml_edit::Item` (used by the codex exporter).  `toml_edit` distinguishes
standard tables from inline tables; the `toml` crate parses both to the
same `Value::Table`, and its `as_table`, like `toml_edit`'s
`as_table_like`, accepts either.  Datetimes and float payloads are opaque
tags: the embedded code only ever skips or forwards them. -/

inductive TItem where
  | str (v : String)
  | int (n : Int)
  | float (tag : Int)
  | bool (v : Bool)
  | datetime (tag : Int)
  | arr (xs : List TItem)
  | inlineTable (kvs : List (String × TItem))
  | table (kvs : List (String × TItem))
deriving Repr

def tAsStr : TItem → Option String
  | .str v => some v
  | _ => none

def tAsArr : TItem → Option (List TItem)
  | .arr xs => some xs
  | _ => none

def tAsTable : TItem → Option (List (String × TItem))
  | .table kvs => some kvs
  | .inlineTable kvs => some kvs
  | _ => none

/-! ## Codex importer (`codex.rs`, `import_from_codex`) -/

/-- Generic TOML→JSON conversion for the extended fields of a codex entry
(`codex.rs` lines 126-169): scalars map 1:1, arrays keep only their
scalar elements (empty result is skipped), tables keep only string values
(empty result is skipped), datetimes are skipped. -/
def codexTomlToJson : TItem → Option JValue
  | .str v => some (.s v)
  | .int n => some (.num (.i n))
  | .float tag => some (.num (.f tag))
  | .bool v => some (.b v)
  | .arr xs =>
    let json_arr := xs.filterMap (fun x =>
      match x with
      | .str v => some (JValue.s v)
      | .int n => some (.num (.i n))
      | .float tag => some (.num (.f tag))
      | .bool v => some (.b v)
      | _ => none)
    if json_arr.isEmpty then none else some (.arr json_arr)
  | .inlineTable kvs | .table kvs =>
    let json_obj := kvs.filterMap (fun kv => (tAsStr kv.2).map (fun v => (kv.1, JValue.s v)))
    if json_obj.isEmpty then none else some (.obj json_obj)
  | .datetime _ => none

/-- Core fields of a codex entry by transport type (`codex.rs` lines 51-55). -/
def codexCoreFields (typ : String) : List String :=
  if typ == "stdio" then ["type", "command", "args", "env", "cwd"]
  else if typ == "http" || typ == "sse" then ["type", "url", "http_headers"]
  else ["type"]

/-- Strongly-typed stdio core fields of a codex entry
(`codex.rs` lines 59-88), starting from the spec holding only `type`. -/
def codexStdioSpec (tbl : List (String × TItem)) : List (String × JValue) :=
  let spec : List (String × JValue) := [("type", .s "stdio")]
  let spec := match (lookupA tbl "command").bind tAsStr with
    | some cmd => insertA spec "command" (.s cmd)
    | none => spec
  let spec := match (lookupA tbl "args").bind tAsArr with
    | some args =>
      let arr := (args.filterMap tAsStr).map JValue.s
      if arr.isEmpty then spec else insertA spec "args" (.arr arr)
    | none => spec
  let spec := match (lookupA tbl "cwd").bind tAsStr with
    | some cwd => if (rustTrim cwd).isEmpty then spec else insertA spec "cwd" (.s cwd)
    | none => spec
  match (lookupA tbl "env").bind tAsTable with
  | some env_tbl =>
    let env_json := env_tbl.filterMap (fun kv => (tAsStr kv.2).map (fun v => (kv.1, JValue.s v)))
    if env_json.isEmpty then spec else insertA spec "env" (.obj env_json)
  | none => spec

/-- Strongly-typed http/sse core fields of a codex entry
(`codex.rs` lines 90-111): `url`, and headers read from `http_headers`
with fallback to legacy `headers`, written back as `headers`. -/
def codexHttpSpec (typ : String) (tbl : List (String × TItem)) : List (String × JValue) :=
  let spec : List (String × JValue) := [("type", .s typ)]
  let spec := match (lookupA tbl "url").bind tAsStr with
    | some url => insertA spec "url" (.s url)
    | none => spec
  let headers_tbl := ((lookupA tbl "http_headers").bind tAsTable).orElse
    (fun _ => (lookupA tbl "headers").bind tAsTable)
  match headers_tbl with
  | some h =>
    let headers_json := h.filterMap (fun kv => (tAsStr kv.2).map (fun v => (kv.1, JValue.s v)))
    if headers_json.isEmpty then spec else insertA spec "headers" (.obj headers_json)
  | none => spec

/-- Extended/unknown fields of a codex entry (`codex.rs` lines 119-175):
every key outside the core fields is converted generically and inserted
when convertible. -/
def codexExtendSpec (typ : String) (tbl : List (String × TItem))
    (spec : List (String × JValue)) : List (String × JValue) :=
  tbl.foldl (fun spec kv =>
    if (codexCoreFields typ).contains kv.1 then spec
    else
      match codexTomlToJson kv.2 with
      | some jv => insertA spec kv.1 jv
      | none => spec) spec

/-- Transport type of a codex entry, defaulting to stdio (`codex.rs` lines 41-44). -/
def codexTypOf (tbl : List (String × TItem)) : String :=
  ((lookupA tbl "type").bind tAsStr).getD "stdio"

/-- JSON spec built from a codex entry of known transport type
(`codex.rs` lines 46-177): the strongly-typed core fields followed by the
generically converted extended fields. -/
def codexSpecOf (tbl : List (String × TItem)) : JValue :=
  let typ := codexTypOf tbl
  JValue.obj (codexExtendSpec typ tbl
    (if typ == "stdio" then codexStdioSpec tbl else codexHttpSpec typ tbl))

/-- Import loop over one codex servers table (the `import_servers_tbl`
closure, `codex.rs` lines 33-216).  Non-table entries are skipped; an
entry of unknown transport type ends the processing of this table (the
closure's early `return changed`); otherwise the built spec is validated
(skip on failure) and merged. -/
def importCodexTbl : List (String × TItem) → Store → Store × Nat
  | [], s => (s, 0)
  | (id, v) :: rest, s =>
    match tAsTable v with
    | none => importCodexTbl rest s
    | some tbl =>
      let typ := codexTypOf tbl
      if typ == "stdio" || typ == "http" || typ == "sse" then
        match validate_server_spec (codexSpecOf tbl) with
        | .error _ => importCodexTbl rest s
        | .ok _ =>
          let step := importMergeStep .codex id (codexSpecOf tbl) s
          let r := importCodexTbl rest step.1
          (r.1, step.2 + r.2)
      else
        (s, 0)

/-- State of the codex live file.

Modelled from the spec: `codex_config.rs` (absent from the snapshot)
returns the live file text, blank when the file is missing; a
syntactically invalid file is a hard error
(spec §4.4 and the comments in `codex.rs`). -/
inductive LiveToml where
  | emptyText
  | invalid
  | root (kvs : List (String × TItem))

/-- Codex importer (`import_from_codex`, `codex.rs` lines 18-237):
process the legacy `[mcp.servers]` group, then the official
`[mcp_servers]` group. -/
def import_from_codex (live : LiveToml) (s : Store) : Except String (Store × Nat) :=
  match live with
  | .emptyText => .ok (s, 0)
  | .invalid => .error "config.toml parse failure"
  | .root kvs =>
    let legacy := ((lookupA kvs "mcp").bind tAsTable).bind
      (fun m => (lookupA m "servers").bind tAsTable)
    let r1 := match legacy with
      | some tbl => importCodexTbl tbl s
      | none => (s, 0)
    let r2 := match (lookupA kvs "mcp_servers").bind tAsTable with
      | some tbl => importCodexTbl tbl r1.1
      | none => (r1.1, 0)
    .ok (r2.1, r1.2 + r2.2)

/-- Every flag-true binding of `s` is present (flag-true) in `t`. -/
def coversFlags (app : AppType) (s t : Store) : Prop :=
  ∀ id srv, lookupA s id = some srv → srv.apps.get_enabled_for app = true →
    ∃ srv', lookupA t id = some srv' ∧ srv'.apps.get_enabled_for app = true

/-- Concrete inputs used by the witnesses below. -/
def wSpecX : JValue := JValue.obj [("command", JValue.s "x")]

def wSpecY : JValue := JValue.obj [("command", JValue.s "y")]

def wLiveX : LiveJson :=
  .root (JValue.obj [("mcpServers", JValue.obj [("a", wSpecX)])])

def wLiveY : LiveJson :=
  .root (JValue.obj [("mcpServers", JValue.obj [("a", wSpecY)])])

def wSrvOff : McpServer :=
  { id := "a", name := "A", server := wSpecX, apps := ⟨false, false, false⟩,
    description := none, homepage := none, docs := none, tags := [] }

def wSrvOn : McpServer :=
  { id := "a", name := "A", server := wSpecX, apps := ⟨true, false, false⟩,
    description := none, homepage := none, docs := none, tags := [] }

def wSrvNew : McpServer :=
  { id := "a", name := "a", server := wSpecX, apps := ⟨true, false, false⟩,
    description := none, homepage := none, docs := none, tags := [] }

/-! ## Validator characterization (claim C3)

The two predicates below are written from the claim's words (not from the
source) so that the validator can be compared against them. -/

/-- Field is a string that is non-blank after trimming. -/
def jStrNonBlank : Option JValue → Bool
  | some (.s v) => !(rustTrim v).isEmpty
  | _ => false

/-- Validity condition exactly as claim C3 states it: (a) the `type`
field is absent or equal to one of `stdio`/`http`/`sse`, and (b) the
effective type's required field (`command` for stdio, `url` for
http/sse) is a string that is non-blank after trimming; an absent type
field is treated as stdio. -/
def c3ClaimedOk (spec : JValue) : Bool :=
  let aOk := match jGet spec "type" with
    | none => true
    | some (JValue.s t) => t == "stdio" || t == "http" || t == "sse"
    | some _ => false
  let eff := match jGet spec "type" with
    | some (JValue.s t) => t
    | _ => "stdio"
  let bOk :=
    if eff == "stdio" then jStrNonBlank (jGet spec "command")
    else if eff == "http" || eff == "sse" then jStrNonBlank (jGet spec "url")
    else true
  aOk && bOk

/-- Amended validity condition: a `type` field that is absent or not a
string is treated as stdio (this is the only change the counterexample
forces); a string discriminant must be one of the three and selects the
required field. -/
def c3AmendedOk (spec : JValue) : Bool :=
  match (jGet spec "type").bind jAsStr with
  | none => jStrNonBlank (jGet spec "command")
  | some t =>
    if t == "stdio" then jStrNonBlank (jGet spec "command")
    else if t == "http" || t == "sse" then jStrNonBlank (jGet spec "url")
    else false

/-! ## Generic JSON→TOML value converter
(`mcp/toml_convert.rs`, `json_value_to_toml_item`, lines 19-106) -/

/-- Array element loop of the converter (`toml_convert.rs` lines 43-68):
push scalar elements; a non-scalar element clears `all_same_type` and
breaks, which discards the whole array (`none` here). -/
def tomlArrLoop : List JValue → Option (List TItem)
  | [] => some []
  | x :: rest =>
    match x with
    | .s v => (tomlArrLoop rest).map (fun l => .str v :: l)
    | .num (.i n) => (tomlArrLoop rest).map (fun l => .int n :: l)
    | .num (.f tag) => (tomlArrLoop rest).map (fun l => .float tag :: l)
    | .b v => (tomlArrLoop rest).map (fun l => .bool v :: l)
    | _ => none

/-- Object entry loop of the converter (`toml_convert.rs` lines 83-91):
string values only; a non-string value clears `all_strings` and breaks,
discarding the whole object. -/
def tomlObjLoop : List (String × JValue) → Option (List (String × TItem))
  | [] => some []
  | (k, v) :: rest =>
    match v with
    | .s sv => (tomlObjLoop rest).map (fun l => (k, TItem.str sv) :: l)
    | _ => none

def json_value_to_toml_item (value : JValue) (field_name : String) : Option TItem :=
  match value with
  | .s v => some (.str v)
  | .num (.i n) => some (.int n)
  | .num (.f tag) => some (.float tag)
  | .b v => some (.bool v)
  | .arr xs =>
    match tomlArrLoop xs with
    | some toml_arr => if toml_arr.isEmpty then none else some (.arr toml_arr)
    | none => none
  | .obj kvs =>
    match tomlObjLoop kvs with
    | some inline_table =>
      if inline_table.isEmpty then none else some (.inlineTable inline_table)
    | none => none
  | .null => none

/-- Keys stripped from every written gemini entry
(`gemini_mcp.rs` lines 112-121). -/
def geminiStripKeys : List String :=
  ["type", "enabled", "source", "id", "name", "description", "tags", "homepage", "docs"]

/-- Transform of one effective server object for the gemini live file
(`gemini_mcp.rs` lines 100-122): when the discriminant is `http`, the
`url` field is renamed to `httpUrl`; then the discriminant and the UI
bookkeeping fields are removed. -/
def geminiTransformObj (obj1 : List (String × JValue)) : List (String × JValue) :=
  let transport := (lookupA obj1 "type").bind jAsStr
  let obj2 :=
    if transport == some "http" then
      match lookupA obj1 "url" with
      | some url_value => insertA (eraseA obj1 "url") "httpUrl" url_value
      | none => obj1
    else obj1
  geminiStripKeys.foldl (fun acc k => eraseA acc k) obj2

/-- Effective object of an entry (`gemini_mcp.rs` lines 92-98): when the
entry carries a `server` field, it must be an object and replaces the
entry wholesale. -/
def geminiEffObj (obj0 : List (String × JValue)) :
    Except String (List (String × JValue)) :=
  match lookupA obj0 "server" with
  | some sv =>
    match jAsObj sv with
    | some so => .ok so
    | none => .error "server field is not an object"
  | none => .ok obj0

/-- Output-map construction loop of `set_mcp_servers_map`
(`gemini_mcp.rs` lines 82-124). -/
def geminiBuildOut : List (String × JValue) → List (String × JValue) →
    Except String (List (String × JValue))
  | [], out => .ok out
  | (id, spec) :: rest, out =>
    match jAsObj spec with
    | none => .error "server entry is not an object"
    | some obj0 =>
      match geminiEffObj obj0 with
      | .error e => .error e
      | .ok obj1 =>
        geminiBuildOut rest (insertA out id (JValue.obj (geminiTransformObj obj1)))

/-- Write the enabled-server map into the gemini settings root
(`gemini_mcp.rs` lines 71-135): build the transformed map, then replace
only the `mcpServers` key of the root object. -/
def set_mcp_servers_map (servers : List (String × JValue)) (root : JValue) :
    Except String JValue :=
  match geminiBuildOut servers [] with
  | .error e => .error e
  | .ok out =>
    match jAsObj root with
    | none => .error "settings root must be an object"
    | some rkvs => .ok (JValue.obj (insertA rkvs "mcpServers" (JValue.obj out)))

/-! ## Codex exporter (`codex.rs`, `sync_enabled_to_codex`, and
`toml_convert.rs`, `json_server_to_toml_table`) -/

/-- JSON server spec → TOML table (`toml_convert.rs` lines 114-232):
`type` first (defaulting to stdio), then the strongly-typed core fields,
then every non-core field through the generic converter.  The Rust
signature is `Result` but the body never constructs an error. -/
def json_server_to_toml_table (spec : JValue) : Except String (List (String × TItem)) :=
  let typ := ((jGet spec "type").bind jAsStr).getD "stdio"
  let t : List (String × TItem) := [("type", .str typ)]
  let t :=
    if typ == "stdio" then
      let t := insertA t "command" (.str (((jGet spec "command").bind jAsStr).getD ""))
      let t := match (jGet spec "args").bind jAsArr with
        | some args =>
          let arr_v := (args.filterMap jAsStr).map TItem.str
          if arr_v.isEmpty then t else insertA t "args" (.arr arr_v)
        | none => t
      let t := match (jGet spec "cwd").bind jAsStr with
        | some cwd => if (rustTrim cwd).isEmpty then t else insertA t "cwd" (.str cwd)
        | none => t
      match (jGet spec "env").bind jAsObj with
      | some env =>
        let env_tbl := env.filterMap (fun kv => (jAsStr kv.2).map (fun s => (kv.1, TItem.str s)))
        if env_tbl.isEmpty then t else insertA t "env" (.table env_tbl)
      | none => t
    else if typ == "http" || typ == "sse" then
      let t := insertA t "url" (.str (((jGet spec "url").bind jAsStr).getD ""))
      match (jGet spec "headers").bind jAsObj with
      | some headers =>
        let h_tbl := headers.filterMap (fun kv => (jAsStr kv.2).map (fun s => (kv.1, TItem.str s)))
        if h_tbl.isEmpty then t else insertA t "http_headers" (.table h_tbl)
      | none => t
    else t
  match jAsObj spec with
  | some obj =>
    .ok (obj.foldl (fun t kv =>
      if (codexCoreFields typ).contains kv.1 then t
      else
        match json_value_to_toml_item kv.2 kv.1 with
        | some item => insertA t kv.1 item
        | none => t) t)
  | none => .ok t

/-- Insertion sort used to model `Vec::sort` on the enabled ids
(`codex.rs` line 283); any correct stable sort models it. -/
def insertSorted (x : String) : List String → List String
  | [] => [x]
  | y :: ys => if x ≤ y then x :: y :: ys else y :: insertSorted x ys

def sortStrings (l : List String) : List String := l.foldr insertSorted []

/-- Build the `[mcp_servers]` table from the enabled set
(`codex.rs` lines 280-295): ids in sorted order, each converted;
a conversion error would skip the entry. -/
def codexBuildServersTbl (enabled : List (String × JValue)) : List (String × TItem) :=
  (sortStrings (enabled.map Prod.fst)).foldl (fun tbl id =>
    match lookupA enabled id with
    | some spec =>
      match json_server_to_toml_table spec with
      | .ok t => insertA tbl id (.table t)
      | .error _ => tbl
    | none => tbl) []

/-- Remove the misplaced legacy `[mcp.servers]` table
(`codex.rs` lines 266-273): when the top-level `mcp` item is table-like,
its `servers` key is removed (the `mcp` table itself stays). -/
def codexCleanLegacy (doc : List (String × TItem)) : List (String × TItem) :=
  match lookupA doc "mcp" with
  | some (.table kvs) => insertA doc "mcp" (.table (eraseA kvs "servers"))
  | some (.inlineTable kvs) => insertA doc "mcp" (.inlineTable (eraseA kvs "servers"))
  | _ => doc

/-- Document rewrite of `sync_enabled_to_codex` (`codex.rs` lines
247-305) on a parsed document: clean the legacy location, then either
remove `mcp_servers` (no enabled servers) or set it to the rebuilt
table.  `enabled` is the `collect_enabled_servers` result. -/
def syncCodexDoc (enabled : List (String × JValue)) (doc : List (String × TItem)) :
    List (String × TItem) :=
  let doc := codexCleanLegacy doc
  if enabled.isEmpty then eraseA doc "mcp_servers"
  else insertA doc "mcp_servers" (.table (codexBuildServersTbl enabled))

/-- Full exporter entry point over the live file state: an empty live
file acts as an empty document, an unparsable one is a hard error and
nothing is written. -/
def sync_enabled_to_codex (enabled : List (String × JValue)) (live : LiveToml) :
    Except String (List (String × TItem)) :=
  match live with
  | .emptyText => .ok (syncCodexDoc enabled [])
  | .invalid => .error "config.toml parse failure"
  | .root doc => .ok (syncCodexDoc enabled doc)

/-! ## Key normalization (`mcp/helpers.rs`, `normalize_server_keys`)

Phase 1 (lines 13-55) walks the map, repairing each object entry's
embedded `id` (missing, non-string or blank ids become the map key; a
non-trimmed id is trimmed) and recording a rename when the resulting
target id differs from the map key.  Phase 2 (lines 57-86) applies the
renames: on collision with an existing key the original key is kept and
the embedded id reset to it, otherwise the entry moves to its target
key. -/

/-- Phase-1 treatment of one entry: updated value, change count, and the
target id (`none` for non-object values, which are skipped). -/
def normalizeEntryVal (key : String) (v : JValue) : JValue × Nat × Option String :=
  match v with
  | .obj o =>
    match lookupA o "id" with
    | some idv =>
      match jAsStr idv with
      | some id_str =>
        let trimmed := rustTrim id_str
        if trimmed.isEmpty then
          (.obj (insertA o "id" (.s key)), 1, some key)
        else if trimmed ≠ id_str then
          (.obj (insertA o "id" (.s trimmed)), 1, some trimmed)
        else
          (.obj o, 0, some trimmed)
      | none => (.obj (insertA o "id" (.s key)), 1, some key)
    | none => (.obj (insertA o "id" (.s key)), 1, some key)
  | _ => (v, 0, none)

/-- Phase 1 over the whole map: normalized map, change count, rename
list (in iteration order). -/
def normalizePhase1 : List (String × JValue) →
    List (String × JValue) × Nat × List (String × String)
  | [] => ([], 0, [])
  | (k, v) :: rest =>
    let e := normalizeEntryVal k v
    let r := normalizePhase1 rest
    ((k, e.1) :: r.1,
     e.2.1 + r.2.1,
     match e.2.2 with
     | some t => if t ≠ k then (k, t) :: r.2.2 else r.2.2
     | none => r.2.2)

/-- Phase-2 application of one recorded rename (`helpers.rs` lines
57-86). -/
def applyRename (m : List (String × JValue)) (old_key new_key : String) :
    List (String × JValue) × Nat :=
  if old_key = new_key then (m, 0)
  else if containsA m new_key then
    match lookupA m old_key with
    | some (.obj o) =>
      if (match lookupA o "id" with
          | some (.s s) => s ≠ old_key
          | _ => true : Bool) then
        (insertA m old_key (.obj (insertA o "id" (.s old_key))), 1)
      else (m, 0)
    | some _ => (m, 0)
    | none => (m, 0)
  else
    match lookupA m old_key with
    | some v =>
      let v' := match v with
        | .obj o => JValue.obj (insertA o "id" (.s new_key))
        | v => v
      (eraseA m old_key ++ [(new_key, v')], 1)
    | none => (m, 0)

def normalize_server_keys (m : List (String × JValue)) :
    List (String × JValue) × Nat :=
  let p := normalizePhase1 m
  p.2.2.foldl (fun acc rn =>
    let a := applyRename acc.1 rn.1 rn.2
    (a.1, acc.2 + a.2)) (p.1, p.2.1)

/-! ## Legacy-to-unified migration
(`app_config.rs`, `migrate_mcp_to_unified`, lines 537-659)

The migration walks the three legacy per-client maps in the fixed order
claude, codex, gemini.  A first-seen id creates the unified server (with
fields extracted from the loose legacy JSON object); an id seen again
only has that client's flag set.  `enabled` is read with
`get("enabled").and_then(as_bool).unwrap_or(true)` — absence of a
boolean flag defaults to enabled.  (The conflict warnings of lines
567-573 and 632-638 are log-only and not modelled.) -/

def migrateEntry (app : AppType) (unified : List (String × McpServer))
    (id : String) (entry : JValue) : List (String × McpServer) :=
  match lookupA unified id with
  | some existing =>
    insertA unified id
      { existing with
        apps := existing.apps.set_enabled_for app
          (((jGet entry "enabled").bind jAsBool).getD true) }
  | none =>
    insertA unified id
      { id := id,
        name := ((jGet entry "name").bind jAsStr).getD id,
        server := (jGet entry "server").getD (JValue.obj []),
        apps := McpApps.empty.set_enabled_for app
          (((jGet entry "enabled").bind jAsBool).getD true),
        description := (jGet entry "description").bind jAsStr,
        homepage := (jGet entry "homepage").bind jAsStr,
        docs := (jGet entry "docs").bind jAsStr,
        tags := (((jGet entry "tags").bind jAsArr).map
          (fun arr => arr.filterMap jAsStr)).getD [] }

def migrate_mcp_to_unified (claude codex gemini : List (String × JValue)) :
    List (String × McpServer) :=
  let u := claude.foldl (fun u kv => migrateEntry .claude u kv.1 kv.2) []
  let u := codex.foldl (fun u kv => migrateEntry .codex u kv.1 kv.2) u
  gemini.foldl (fun u kv => migrateEntry .gemini u kv.1 kv.2) u

/-- The legacy map of one client, as the migration selects it. -/
def legacyFor (app : AppType) (claude codex gemini : List (String × JValue)) :
    List (String × JValue) :=
  match app with
  | .claude => claude
  | .codex => codex
  | .gemini => gemini

/-! ## Schema migration engine (`database/schema.rs`)

A store is its table/column layout plus the `PRAGMA user_version`
counter.  SQLite identifier resolution is case-insensitive
(`eq_ignore_ascii_case` in the source); DDL `definition` fragments are
carried but uninterpreted (quotes of the original SQL text elided). -/

def SCHEMA_VERSION : Int := 1

structure DbState where
  tables : List (String × List String)
  version : Int
deriving Repr, DecidableEq

/-- ASCII-case-insensitive comparison (`str::eq_ignore_ascii_case`),
written on the character lists. -/
def eqIgnoreAsciiCase (a b : String) : Bool :=
  a.data.map Char.toLower == b.data.map Char.toLower

def tableExistsB (d : DbState) (table : String) : Bool :=
  d.tables.any (fun t => eqIgnoreAsciiCase t.1 table)

def hasColumnB (d : DbState) (table column : String) : Bool :=
  match d.tables.find? (fun t => eqIgnoreAsciiCase t.1 table) with
  | some t => t.2.any (fun c => eqIgnoreAsciiCase c column)
  | none => false

/-- Identifier allow-list check (`schema.rs` lines 277-287). -/
def validate_identifier (s : String) (kind : String) : Except String Unit :=
  if s.isEmpty then .error (kind ++ " cannot be empty")
  else if !(s.data.all (fun c => c.isAlphanum || c = '_')) then
    .error ("Invalid " ++ kind ++ ": only alphanumeric and underscore allowed")
  else .ok ()

/-- `table_exists` (`schema.rs` lines 289-307). -/
def table_exists (d : DbState) (table : String) : Except String Bool := do
  let _ ← validate_identifier table "table name"
  .ok (tableExistsB d table)

/-- `has_column` (`schema.rs` lines 309-329). -/
def has_column (d : DbState) (table column : String) : Except String Bool := do
  let _ ← validate_identifier table "table name"
  let _ ← validate_identifier column "column name"
  .ok (hasColumnB d table column)

/-- `add_column_if_missing` (`schema.rs` lines 331-354): error when the
table does not exist, no-op when the column is already there, otherwise
append the column. -/
def add_column_if_missing (d : DbState) (table column definition : String) :
    Except String (DbState × Bool) := do
  let _ ← validate_identifier table "table name"
  let _ ← validate_identifier column "column name"
  let te ← table_exists d table
  if !te then
    .error ("Table " ++ table ++ " does not exist, cannot add column " ++ column)
  else
    let hc ← has_column d table column
    if hc then .ok (d, false)
    else
      .ok ({ d with tables := d.tables.map (fun t =>
        if eqIgnoreAsciiCase t.1 table then (t.1, t.2 ++ [column]) else t) }, true)

/-- Tables and columns created by `create_tables_on_conn`
(`schema.rs` lines 14-121). -/
def defaultTables : List (String × List String) :=
  [("providers", ["id", "app_type", "name", "settings_config", "website_url",
      "category", "created_at", "sort_index", "notes", "icon", "icon_color",
      "meta", "is_current"]),
   ("provider_endpoints", ["id", "provider_id", "app_type", "url", "added_at"]),
   ("mcp_servers", ["id", "name", "server_config", "description", "homepage",
      "docs", "tags", "enabled_claude", "enabled_codex", "enabled_gemini"]),
   ("prompts", ["id", "app_type", "name", "content", "description", "enabled",
      "created_at", "updated_at"]),
   ("skills", ["key", "installed", "installed_at"]),
   ("skill_repos", ["owner", "name", "branch", "enabled", "skills_path"]),
   ("settings", ["key", "value"])]

/-- `create_tables_on_conn`: CREATE TABLE IF NOT EXISTS for each default
table. -/
def create_tables_on_conn (d : DbState) : DbState :=
  let ts := defaultTables.foldl (fun ts t =>
    if ts.any (fun t0 => eqIgnoreAsciiCase t0.1 t.1) then ts else ts ++ [t]) d.tables
  { d with tables := ts }

/-- `set_user_version` (`schema.rs` lines 264-272). -/
def set_user_version (d : DbState) (version : Int) : Except String DbState :=
  if version < 0 then .error "user_version cannot be negative"
  else .ok { d with version := version }

/-- Columns added by the version-0 → 1 migration step
(`schema.rs` lines 145-227), with their DDL fragments. -/
def migrationV0Columns : List (String × String × String) :=
  [("providers", "category", "TEXT"),
   ("providers", "created_at", "INTEGER"),
   ("providers", "sort_index", "INTEGER"),
   ("providers", "notes", "TEXT"),
   ("providers", "icon", "TEXT"),
   ("providers", "icon_color", "TEXT"),
   ("providers", "meta", "TEXT NOT NULL DEFAULT empty-object"),
   ("providers", "is_current", "BOOLEAN NOT NULL DEFAULT 0"),
   ("provider_endpoints", "added_at", "INTEGER"),
   ("mcp_servers", "description", "TEXT"),
   ("mcp_servers", "homepage", "TEXT"),
   ("mcp_servers", "docs", "TEXT"),
   ("mcp_servers", "tags", "TEXT NOT NULL DEFAULT empty-array"),
   ("mcp_servers", "enabled_codex", "BOOLEAN NOT NULL DEFAULT 0"),
   ("mcp_servers", "enabled_gemini", "BOOLEAN NOT NULL DEFAULT 0"),
   ("prompts", "description", "TEXT"),
   ("prompts", "enabled", "BOOLEAN NOT NULL DEFAULT 1"),
   ("prompts", "created_at", "INTEGER"),
   ("prompts", "updated_at", "INTEGER"),
   ("skills", "installed_at", "INTEGER NOT NULL DEFAULT 0"),
   ("skill_repos", "branch", "TEXT NOT NULL DEFAULT main"),
   ("skill_repos", "enabled", "BOOLEAN NOT NULL DEFAULT 1"),
   ("skill_repos", "skills_path", "TEXT")]

/-- Body of the migration loop (`schema.rs` lines 142-239).  With
`SCHEMA_VERSION = 1` the `while version < SCHEMA_VERSION` loop runs the
version-0 case at most once (which stamps version 1, ending the loop);
any other version below the current one hits the unknown-version arm. -/
def migrateBody (d : DbState) : Except String DbState :=
  if d.version < SCHEMA_VERSION then
    if d.version = 0 then do
      let d ← migrationV0Columns.foldlM (fun d tc => do
        let r ← add_column_if_missing d tc.1 tc.2.1 tc.2.2
        pure r.1) d
      set_user_version d SCHEMA_VERSION
    else .error "Unknown database version, cannot migrate"
  else .ok d

/-- `apply_schema_migrations_on_conn` (`schema.rs` lines 128-254): fail
hard on a version newer than the build; otherwise run the loop inside a
savepoint — on error the savepoint rollback restores the original state
(modelled by returning the input state alongside the error). -/
def apply_schema_migrations_on_conn (d : DbState) : DbState × Except String Unit :=
  if d.version > SCHEMA_VERSION then
    (d, .error "Database version too new")
  else
    match migrateBody d with
    | .ok d' => (d', .ok ())
    | .error e => (d, .error e)

/-! ## Migration result helper -/

def isOkE (x : Except String Unit) : Bool :=
  match x with
  | .ok _ => true
  | .error _ => false

/-! ## Database backup and SQL import (`database/backup.rs`) -/

def DB_BACKUP_RETAIN : Nat := 10

/-- Abstract contents of a SQLite database file: its schema state, the
row counts of the two primary resource tables, and an opaque payload
standing for all remaining rows. -/
structure Db where
  schema : DbState
  providersCount : Nat
  mcpCount : Nat
  payload : Nat
deriving Repr, DecidableEq

/-- A `.db` file in the backups directory: its modification time and
contents.  The backup id `db_backup_<timestamp>` is modelled by the
numeric timestamp. -/
structure BackupFile where
  mtime : Nat
  content : Db
deriving Repr, DecidableEq

/-- The filesystem state seen by `backup.rs`: the main database file
(`cli-hub.db`, absent when `none`), the `.db` files in the backups
directory, and the current clock used for backup timestamps. -/
structure SysState where
  live : Option Db
  backups : List BackupFile
  now : Nat
deriving Repr, DecidableEq

/-- Insertion step of the ascending-by-mtime sort used by the backup
cleanup (`sort_by_key` is stable). -/
def insertB (x : BackupFile) : List BackupFile → List BackupFile
  | [] => [x]
  | y :: ys => if x.mtime ≤ y.mtime then x :: y :: ys else y :: insertB x ys

def sortB (l : List BackupFile) : List BackupFile :=
  l.foldr insertB []

/-- `cleanup_db_backups` (`backup.rs` lines 275-304): with more than
`DB_BACKUP_RETAIN` `.db` entries in the directory, the oldest by
modification time are deleted so that `DB_BACKUP_RETAIN` remain.  The
directory is a set of files; the survivors are listed in mtime order. -/
def cleanup_db_backups (entries : List BackupFile) : List BackupFile :=
  if entries.length ≤ DB_BACKUP_RETAIN then entries
  else (sortB entries).drop (entries.length - DB_BACKUP_RETAIN)

/-- `backup_database_file` (`backup.rs` lines 77-106): no-op returning
`none` when the main database file does not exist; otherwise snapshot
it into the backups directory stamped with the current time, prune old
backups, and return the new backup id. -/
def backup_database_file (st : SysState) : SysState × Option Nat :=
  match st.live with
  | none => (st, none)
  | some db =>
      let nb : BackupFile := { mtime := st.now, content := db }
      let bs := cleanup_db_backups (st.backups ++ [nb])
      ({ st with backups := bs }, some st.now)

/-- Effect of `create_tables_on_conn` on a database file: missing
default tables are created empty (`CREATE TABLE IF NOT EXISTS`), so a
primary table that did not exist before now exists with zero rows. -/
def create_tables_db (db : Db) : Db :=
  let pc := if tableExistsB db.schema "providers" then db.providersCount else 0
  let mc := if tableExistsB db.schema "mcp_servers" then db.mcpCount else 0
  { schema := create_tables_on_conn db.schema, providersCount := pc, mcpCount := mc, payload := db.payload }

/-- Effect of `apply_schema_migrations_on_conn` on a database file: the
migration only alters the schema (`ALTER TABLE ... ADD COLUMN` and the
version stamp), never row counts. -/
def apply_schema_migrations_db (db : Db) : Db × Except String Unit :=
  let r := apply_schema_migrations_on_conn db.schema
  ({ schema := r.1, providersCount := db.providersCount, mcpCount := db.mcpCount, payload := db.payload }, r.2)

/-- `validate_basic_state` (`backup.rs` lines 256-270): reject when both
primary resource tables are empty. -/
def validate_basic_state (db : Db) : Except String Unit :=
  if db.providersCount == 0 && db.mcpCount == 0 then
    .error "Imported SQL does not contain valid provider or MCP data"
  else .ok ()

/-- Denotation of the SQL source file handed to `import_sql`: the file
may be missing, its statements may fail to execute on a fresh scratch
database, or they execute and leave the scratch database in state `db`.
SQL text is opaque to the model, so `sanitize_import_sql` (a pure text
rewrite applied before execution) is absorbed into the denotation. -/
inductive SqlFile where
  | missing
  | bad (err : String)
  | good (db : Db)
deriving Repr, DecidableEq

/-- `import_sql` (`backup.rs` lines 27-74): check the file exists, take
a pre-import backup, replay the SQL on a fresh scratch database, fill
missing tables, run migrations, sanity-check the scratch contents, and
only then copy the scratch database over the live one, returning the
backup id (`none` models the empty id used when no backup was made). -/
def import_sql (st : SysState) (file : SqlFile) : SysState × Except String (Option Nat) :=
  match file with
  | .missing => (st, .error "SQL file does not exist")
  | .bad e => ((backup_database_file st).1, .error ("Failed to execute SQL import: " ++ e))
  | .good db =>
      match (apply_schema_migrations_db (create_tables_db db)).2 with
      | .error e => ((backup_database_file st).1, .error e)
      | .ok _ =>
        match validate_basic_state (apply_schema_migrations_db (create_tables_db db)).1 with
        | .error e => ((backup_database_file st).1, .error e)
        | .ok _ =>
          ({ (backup_database_file st).1 with live := some (apply_schema_migrations_db (create_tables_db db)).1 }, .ok (backup_database_file st).2)

def wDbLive : Db := { schema := { tables := defaultTables, version := 1 }, providersCount := 2, mcpCount := 3, payload := 7 }

def wDbEmpty : Db := { schema := { tables := defaultTables, version := 1 }, providersCount := 0, mcpCount := 0, payload := 0 }

def wDbGood : Db := { schema := { tables := defaultTables, version := 1 }, providersCount := 1, mcpCount := 0, payload := 0 }

def wSysSt : SysState := { live := some wDbLive, backups := [{ mtime := 1, content := wDbLive }], now := 5 }

/-! ## Association-list lemmas -/

theorem lookupA_append_of_some {α : Type} {s : List (String × α)} {id : String} {v : α}
    (t : List (String × α)) (h : lookupA s id = some v) :
    lookupA (s ++ t) id = some v := by
  induction s with
  | nil => simp [lookupA] at h
  | cons hd tl ih =>
    obtain ⟨k, w⟩ := hd
    simp only [lookupA, List.cons_append] at h ⊢
    by_cases hk : k = id
    · simpa [hk] using h
    · rw [if_neg hk] at h ⊢
      exact ih h

theorem lookupA_append_of_none {α : Type} {s : List (String × α)} {id : String}
    (t : List (String × α)) (h : lookupA s id = none) :
    lookupA (s ++ t) id = lookupA t id := by
  induction s with
  | nil => simp
  | cons hd tl ih =>
    obtain ⟨k, w⟩ := hd
    simp only [lookupA, List.cons_append] at h ⊢
    by_cases hk : k = id
    · simp [hk] at h
    · rw [if_neg hk] at h ⊢
      exact ih h

theorem lookupA_modifyA_ne {α : Type} {s : List (String × α)} {k id : String}
    (f : α → α) (h : k ≠ id) :
    lookupA (modifyA s k f) id = lookupA s id := by
  induction s with
  | nil => rfl
  | cons hd tl ih =>
    obtain ⟨k', w⟩ := hd
    simp only [modifyA, lookupA]
    by_cases hk' : k' = k
    · subst hk'
      simp only [if_pos rfl, lookupA, if_neg h]
    · rw [if_neg hk']
      simp only [lookupA]
      by_cases hid : k' = id
      · simp [hid]
      · rw [if_neg hid, if_neg hid]
        exact ih

theorem lookupA_modifyA_self {α : Type} {s : List (String × α)} {k : String} (f : α → α) :
    lookupA (modifyA s k f) k = (lookupA s k).map f := by
  induction s with
  | nil => rfl
  | cons hd tl ih =>
    obtain ⟨k', w⟩ := hd
    simp only [modifyA, lookupA]
    by_cases hk' : k' = k
    · simp [hk', lookupA]
    · rw [if_neg hk']
      simp only [lookupA, if_neg hk']
      exact ih

/-! ## AppFlags lemmas -/

theorem McpApps.get_set_self (a : McpApps) (app : AppType) (b : Bool) :
    (a.set_enabled_for app b).get_enabled_for app = b := by
  cases app <;> rfl

theorem McpApps.set_set_self (a : McpApps) (app : AppType) (b : Bool) :
    (a.set_enabled_for app b).set_enabled_for app b = a.set_enabled_for app b := by
  cases app <;> rfl

/-! ## Merge-step lemmas (shared by claims C1 and C2) -/

theorem stepStore_frame {app : AppType} {k : String} {spec : JValue} {s : Store}
    {id : String} {srv : McpServer} (h : lookupA s id = some srv) :
    lookupA (importMergeStep app k spec s).1 id = some srv ∨
    lookupA (importMergeStep app k spec s).1 id =
      some { srv with apps := srv.apps.set_enabled_for app true } := by
  unfold importMergeStep
  cases hks : lookupA s k with
  | some ex =>
    dsimp only
    by_cases hflag : ex.apps.get_enabled_for app = true
    · rw [if_pos hflag]
      exact Or.inl h
    · rw [if_neg hflag]
      by_cases hk : k = id
      · subst hk
        rw [h] at hks
        cases hks
        right
        simp only
        rw [lookupA_modifyA_self, h]
        rfl
      · left
        simp only
        rw [lookupA_modifyA_ne _ hk]
        exact h
  | none =>
    dsimp only
    left
    exact lookupA_append_of_some _ h

theorem stepStore_pres {app : AppType} {k : String} {spec : JValue} {s : Store}
    {id : String} {srv : McpServer} (h : lookupA s id = some srv)
    (hf : srv.apps.get_enabled_for app = true) :
    lookupA (importMergeStep app k spec s).1 id = some srv := by
  unfold importMergeStep
  cases hks : lookupA s k with
  | some ex =>
    dsimp only
    by_cases hflag : ex.apps.get_enabled_for app = true
    · rw [if_pos hflag]
      exact h
    · rw [if_neg hflag]
      by_cases hk : k = id
      · subst hk
        rw [h] at hks
        cases hks
        exact absurd hf hflag
      · simp only
        rw [lookupA_modifyA_ne _ hk]
        exact h
  | none =>
    dsimp only
    exact lookupA_append_of_some _ h

theorem stepStore_post {app : AppType} {k : String} {spec : JValue} {s : Store} :
    ∃ srv, lookupA (importMergeStep app k spec s).1 k = some srv ∧
      srv.apps.get_enabled_for app = true := by
  unfold importMergeStep
  cases hks : lookupA s k with
  | some ex =>
    dsimp only
    by_cases hflag : ex.apps.get_enabled_for app = true
    · rw [if_pos hflag]
      exact ⟨ex, hks, hflag⟩
    · rw [if_neg hflag]
      refine ⟨{ ex with apps := ex.apps.set_enabled_for app true }, ?_, ?_⟩
      · simp only
        rw [lookupA_modifyA_self, hks]
        rfl
      · exact McpApps.get_set_self _ _ _
  | none =>
    dsimp only
    refine ⟨{ id := k, name := k, server := spec,
              apps := McpApps.empty.set_enabled_for app true,
              description := none, homepage := none, docs := none,
              tags := [] }, ?_, McpApps.get_set_self _ _ _⟩
    rw [lookupA_append_of_none _ hks]
    simp [lookupA]

theorem step_noop {app : AppType} {k : String} {spec : JValue} {s : Store}
    {srv : McpServer} (h : lookupA s k = some srv)
    (hf : srv.apps.get_enabled_for app = true) :
    importMergeStep app k spec s = (s, 0) := by
  unfold importMergeStep
  rw [h]
  simp [hf]

/-! ## Import-run lemmas -/

theorem importMergeList_pres {app : AppType} {l : List (String × JValue)} :
    ∀ {s : Store} {id : String} {srv : McpServer}, lookupA s id = some srv →
      srv.apps.get_enabled_for app = true →
      lookupA (importMergeList app l s).1 id = some srv := by
  induction l with
  | nil => intro s id srv h _; simpa [importMergeList] using h
  | cons hd tl ih =>
    intro s id srv h hf
    obtain ⟨k, spec⟩ := hd
    simp only [importMergeList]
    cases hv : validate_server_spec spec with
    | error e => exact ih h hf
    | ok u => exact ih (stepStore_pres h hf) hf

theorem importCodexTbl_pres {l : List (String × TItem)} :
    ∀ {s : Store} {id : String} {srv : McpServer}, lookupA s id = some srv →
      srv.apps.get_enabled_for .codex = true →
      lookupA (importCodexTbl l s).1 id = some srv := by
  induction l with
  | nil => intro s id srv h _; simpa [importCodexTbl] using h
  | cons hd tl ih =>
    intro s id srv h hf
    obtain ⟨k, v⟩ := hd
    simp only [importCodexTbl]
    cases htbl : tAsTable v with
    | none => exact ih h hf
    | some tbl =>
      simp only
      by_cases hknown : (codexTypOf tbl == "stdio" || codexTypOf tbl == "http"
          || codexTypOf tbl == "sse") = true
      · rw [if_pos hknown]
        cases hv : validate_server_spec (codexSpecOf tbl) with
        | error e => exact ih h hf
        | ok u => exact ih (stepStore_pres h hf) hf
      · rw [if_neg hknown]
        exact h

theorem coversFlags_refl {app : AppType} {s : Store} : coversFlags app s s :=
  fun _ srv h hf => ⟨srv, h, hf⟩

theorem importMergeList_covers_zero {app : AppType} {l : List (String × JValue)} :
    ∀ {s t : Store}, coversFlags app (importMergeList app l s).1 t →
      importMergeList app l t = (t, 0) := by
  induction l with
  | nil => intro s t _; rfl
  | cons hd tl ih =>
    intro s t hcov
    obtain ⟨k, spec⟩ := hd
    simp only [importMergeList] at hcov ⊢
    cases hv : validate_server_spec spec with
    | error e =>
      rw [hv] at hcov
      exact ih hcov
    | ok u =>
      rw [hv] at hcov
      simp only at hcov
      obtain ⟨srv0, hpost, hflag⟩ :=
        @stepStore_post app k spec s
      have hS1 := importMergeList_pres (l := tl) hpost hflag
      obtain ⟨srv', ht, hflag'⟩ := hcov k srv0 hS1 hflag
      have hstep : importMergeStep app k spec t = (t, 0) := step_noop ht hflag'
      have hrest : importMergeList app tl t = (t, 0) := ih hcov
      simp [hstep, hrest]

theorem importCodexTbl_covers_zero {l : List (String × TItem)} :
    ∀ {s t : Store}, coversFlags .codex (importCodexTbl l s).1 t →
      importCodexTbl l t = (t, 0) := by
  induction l with
  | nil => intro s t _; rfl
  | cons hd tl ih =>
    intro s t hcov
    obtain ⟨k, v⟩ := hd
    simp only [importCodexTbl] at hcov ⊢
    cases htbl : tAsTable v with
    | none =>
      rw [htbl] at hcov
      exact ih hcov
    | some tbl =>
      rw [htbl] at hcov
      simp only at hcov ⊢
      by_cases hknown : (codexTypOf tbl == "stdio" || codexTypOf tbl == "http"
          || codexTypOf tbl == "sse") = true
      · rw [if_pos hknown] at hcov ⊢
        cases hv : validate_server_spec (codexSpecOf tbl) with
        | error e =>
          rw [hv] at hcov
          exact ih hcov
        | ok u =>
          rw [hv] at hcov
          simp only at hcov
          obtain ⟨srv0, hpost, hflag⟩ :=
            @stepStore_post AppType.codex k (codexSpecOf tbl) s
          have hS1 := importCodexTbl_pres (l := tl) hpost hflag
          obtain ⟨srv', ht, hflag'⟩ := hcov k srv0 hS1 hflag
          have hstep := @step_noop AppType.codex k (codexSpecOf tbl) t srv' ht hflag'
          have hrest : importCodexTbl tl t = (t, 0) := ih hcov
          simp [hstep, hrest]
      · rw [if_neg hknown]

theorem importMergeList_frame {app : AppType} {l : List (String × JValue)} :
    ∀ {s : Store} {id : String} {srv : McpServer}, lookupA s id = some srv →
      lookupA (importMergeList app l s).1 id = some srv ∨
      lookupA (importMergeList app l s).1 id =
        some { srv with apps := srv.apps.set_enabled_for app true } := by
  induction l with
  | nil => intro s id srv h; left; simpa [importMergeList] using h
  | cons hd tl ih =>
    intro s id srv h
    obtain ⟨k, spec⟩ := hd
    simp only [importMergeList]
    cases hv : validate_server_spec spec with
    | error e => exact ih h
    | ok u =>
      dsimp only
      rcases @stepStore_frame app k spec s id srv h with h1 | h1
      · exact ih h1
      · rcases ih h1 with h2 | h2
        · exact Or.inr h2
        · right
          simpa [McpApps.set_set_self] using h2

theorem importJsonFamily_frame {app : AppType} {live : LiveJson} {s s' : Store}
    {n : Nat} {id : String} {srv : McpServer}
    (h : lookupA s id = some srv)
    (himp : importJsonFamily app live s = .ok (s', n)) :
    lookupA s' id = some srv ∨
    lookupA s' id = some { srv with apps := srv.apps.set_enabled_for app true } := by
  cases live with
  | missing =>
    simp only [importJsonFamily, Except.ok.injEq, Prod.mk.injEq] at himp
    obtain ⟨rfl, -⟩ := himp
    exact Or.inl h
  | invalid => simp [importJsonFamily] at himp
  | root v =>
    simp only [importJsonFamily] at himp
    cases hm : (jGet v "mcpServers").bind jAsObj with
    | none =>
      rw [hm] at himp
      simp only [Except.ok.injEq, Prod.mk.injEq] at himp
      obtain ⟨rfl, -⟩ := himp
      exact Or.inl h
    | some entries =>
      rw [hm] at himp
      simp only [Except.ok.injEq] at himp
      have hs' : (importMergeList app entries s).1 = s' := by rw [himp]
      rw [← hs']
      exact importMergeList_frame h

/-- C1 (merge-safety of import): for every store and live file, when an
imported entry's id already exists in the store, the importer leaves the
existing server untouched except for possibly setting that client's flag
to true; name, spec, description and tags are never overwritten. -/
theorem merge_safety_of_import :
    (∀ live s s' n id srv, lookupA s id = some srv →
        import_from_claude live s = .ok (s', n) →
        lookupA s' id = some srv ∨
        lookupA s' id = some { srv with apps := { srv.apps with claude := true } }) ∧
    (∀ live s s' n id srv, lookupA s id = some srv →
        import_from_gemini live s = .ok (s', n) →
        lookupA s' id = some srv ∨
        lookupA s' id = some { srv with apps := { srv.apps with gemini := true } }) := by
  constructor
  · intro live s s' n id srv h himp
    exact importJsonFamily_frame h himp
  · intro live s s' n id srv h himp
    exact importJsonFamily_frame h himp

/-- Witness for C1: a store holding id `a` with all flags false, and a
live file re-importing id `a` with a different spec. -/
theorem merge_safety_of_import_witness :
    lookupA [("a", wSrvOn)] "a" = some wSrvOff ∨
    lookupA [("a", wSrvOn)] "a" =
      some { wSrvOff with apps := { wSrvOff.apps with claude := true } } :=
  merge_safety_of_import.1 wLiveY [("a", wSrvOff)] [("a", wSrvOn)] 1 "a" wSrvOff rfl rfl

/-- C2 (importer idempotence): a successful importer run followed by a
second run against the unchanged live file makes the second run report 0
changes and leave the store as it was after the first run; proved for the
claude importer and the codex importer. -/
theorem importer_idempotent :
    (∀ live s s1 n1, import_from_claude live s = .ok (s1, n1) →
        import_from_claude live s1 = .ok (s1, 0)) ∧
    (∀ live s s1 n1, import_from_codex live s = .ok (s1, n1) →
        import_from_codex live s1 = .ok (s1, 0)) := by
  constructor
  · intro live s s1 n1 h
    cases live with
    | missing => rfl
    | invalid => simp [import_from_claude, importJsonFamily] at h
    | root v =>
      simp only [import_from_claude, importJsonFamily] at h ⊢
      cases hm : (jGet v "mcpServers").bind jAsObj with
      | none => rfl
      | some entries =>
        rw [hm] at h
        dsimp only at h ⊢
        simp only [Except.ok.injEq] at h
        have hs1 : (importMergeList .claude entries s).1 = s1 := by rw [h]
        have hz : importMergeList .claude entries s1 = (s1, 0) :=
          importMergeList_covers_zero (s := s) (by rw [hs1]; exact coversFlags_refl)
        rw [hz]
  · intro live s s1 n1 h
    cases live with
    | emptyText => rfl
    | invalid => simp [import_from_codex] at h
    | root kvs =>
      simp only [import_from_codex] at h ⊢
      cases hl : ((lookupA kvs "mcp").bind tAsTable).bind
          (fun m => (lookupA m "servers").bind tAsTable) with
      | none =>
        cases hm : (lookupA kvs "mcp_servers").bind tAsTable with
        | none => rfl
        | some tbl =>
          rw [hl, hm] at h
          dsimp only at h ⊢
          simp only [Except.ok.injEq, Prod.mk.injEq] at h
          obtain ⟨hs1, -⟩ := h
          have hz : importCodexTbl tbl s1 = (s1, 0) :=
            importCodexTbl_covers_zero (s := s) (by rw [hs1]; exact coversFlags_refl)
          rw [hz]
          rfl
      | some tbl1 =>
        cases hm : (lookupA kvs "mcp_servers").bind tAsTable with
        | none =>
          rw [hl, hm] at h
          dsimp only at h ⊢
          simp only [Except.ok.injEq, Prod.mk.injEq] at h
          obtain ⟨hs1, -⟩ := h
          have hz : importCodexTbl tbl1 s1 = (s1, 0) :=
            importCodexTbl_covers_zero (s := s) (by rw [hs1]; exact coversFlags_refl)
          rw [hz]
        | some tbl2 =>
          rw [hl, hm] at h
          dsimp only at h ⊢
          simp only [Except.ok.injEq, Prod.mk.injEq] at h
          obtain ⟨hs1, -⟩ := h
          have hcov1 : coversFlags .codex (importCodexTbl tbl1 s).1 s1 := by
            intro id srv hh hf
            refine ⟨srv, ?_, hf⟩
            rw [← hs1]
            exact importCodexTbl_pres hh hf
          have hz1 : importCodexTbl tbl1 s1 = (s1, 0) :=
            importCodexTbl_covers_zero (s := s) hcov1
          have hz2 : importCodexTbl tbl2 s1 = (s1, 0) :=
            importCodexTbl_covers_zero (s := (importCodexTbl tbl1 s).1)
              (by rw [hs1]; exact coversFlags_refl)
          rw [hz1, hz2]
          rfl

/-- Witness for C2: a first claude run inserts id `a` into the empty
store; the second run reports 0 changes. -/
theorem importer_idempotent_witness :
    import_from_claude wLiveX [("a", wSrvNew)] = .ok ([("a", wSrvNew)], 0) :=
  importer_idempotent.1 wLiveX [] [("a", wSrvNew)] 1 rfl

theorem jStrNonBlank_eq (o : Option JValue) :
    jStrNonBlank o = !(rustTrim ((o.bind jAsStr).getD "")).isEmpty := by
  cases o with
  | none => rfl
  | some v => cases v <;> rfl

/-- Counterexample to C3 as stated: a spec whose `type` field is the
boolean `false` is accepted by the validator (a non-string discriminant
falls back to stdio), while the claim's condition (a) rejects it. -/
theorem validator_characterization_cex :
    validate_server_spec
        (JValue.obj [("type", JValue.b false), ("command", JValue.s "x")]) = .ok () ∧
    c3ClaimedOk
        (JValue.obj [("type", JValue.b false), ("command", JValue.s "x")]) = false :=
  ⟨rfl, rfl⟩

/-- C3 amended: for every JSON object spec, the validator returns Ok
exactly when the amended condition holds (absent or non-string `type`
acts as stdio; a string `type` must be one of stdio/http/sse; stdio
requires a non-blank `command` string, http/sse a non-blank `url`
string). -/
theorem validator_characterization (spec : JValue) (hobj : jIsObj spec = true) :
    validate_server_spec spec = .ok () ↔ c3AmendedOk spec = true := by
  unfold validate_server_spec c3AmendedOk
  rw [hobj]
  simp only [Bool.not_true, Bool.false_eq_true, if_false]
  cases hto : (jGet spec "type").bind jAsStr with
  | none =>
    simp only [Option.map_none, Option.getD_none, Bool.true_or, Bool.not_true,
      Bool.false_eq_true, if_false, Bool.true_and, Bool.false_and, jStrNonBlank_eq]
    by_cases hb : (rustTrim (((jGet spec "command").bind jAsStr).getD "")).isEmpty
    · simp [hb]
    · simp [hb]
  | some t =>
    simp only [Option.map_some, Option.getD_some, jStrNonBlank_eq]
    by_cases h1 : t = "stdio"
    · subst h1
      simp only [show (("stdio" == "stdio") = true) from rfl,
        show (("stdio" == "http") = false) from rfl,
        show (("stdio" == "sse") = false) from rfl]
      by_cases hb : (rustTrim (((jGet spec "command").bind jAsStr).getD "")).isEmpty
      · simp [hb]
      · simp [hb]
    · by_cases h2 : t = "http"
      · subst h2
        simp only [show (("http" == "stdio") = false) from rfl,
          show (("http" == "http") = true) from rfl,
          show (("http" == "sse") = false) from rfl]
        by_cases hb : (rustTrim (((jGet spec "url").bind jAsStr).getD "")).isEmpty
        · simp [hb]
        · simp [hb]
      · by_cases h3 : t = "sse"
        · subst h3
          simp only [show (("sse" == "stdio") = false) from rfl,
            show (("sse" == "http") = false) from rfl,
            show (("sse" == "sse") = true) from rfl]
          by_cases hb : (rustTrim (((jGet spec "url").bind jAsStr).getD "")).isEmpty
          · simp [hb]
          · simp [hb]
        · have b1 : (t == "stdio") = false := by simp [h1]
          have b2 : (t == "http") = false := by simp [h2]
          have b3 : (t == "sse") = false := by simp [h3]
          simp [b1, b2, b3]

/-- Witness for the amended C3 theorem at a concrete object spec. -/
theorem validator_characterization_witness :
    (validate_server_spec (JValue.obj [("type", JValue.s "http"), ("url", JValue.s "u")]) =
        .ok () ↔
      c3AmendedOk (JValue.obj [("type", JValue.s "http"), ("url", JValue.s "u")]) = true) :=
  validator_characterization
    (JValue.obj [("type", JValue.s "http"), ("url", JValue.s "u")]) rfl

/-- C8 (code bug): the claim — and the converter's own doc comment, which
lists mixed-type arrays as unsupported — says a mixed-kind array is
rejected wholesale, but the loop never compares element kinds: its
`all_same_type` flag is cleared only by a non-scalar element, so the
mixed scalar array `[1, "a"]` is converted to a TOML array instead of
being rejected. -/
theorem converter_mixed_array_accepted :
    json_value_to_toml_item (JValue.arr [JValue.num (JNum.i 1), JValue.s "a"]) "x" =
      some (TItem.arr [TItem.int 1, TItem.str "a"]) := rfl

/-! ## Gemini exporter (`gemini_mcp.rs`, `set_mcp_servers_map`) -/

theorem lookupA_eraseA {α : Type} (l : List (String × α)) (key id : String) :
    lookupA (eraseA l key) id = if key = id then none else lookupA l id := by
  induction l with
  | nil => by_cases h : key = id <;> simp [eraseA, lookupA, h]
  | cons hd tl ih =>
    obtain ⟨k, w⟩ := hd
    by_cases hk : k = key
    · have hp : (!(k == key)) = false := by simp [hk]
      simp only [eraseA, List.filter_cons] at ih ⊢
      simp only [hp, Bool.false_eq_true, if_false]
      rw [ih]
      by_cases hkey : key = id
      · simp [hkey]
      · rw [if_neg hkey, if_neg hkey]
        simp only [lookupA]
        rw [if_neg (fun hh => hkey (hk ▸ hh))]
    · have hp : (!(k == key)) = true := by simp [hk]
      simp only [eraseA, List.filter_cons] at ih ⊢
      simp only [hp, if_true]
      simp only [lookupA]
      by_cases hid : k = id
      · have hkey : ¬key = id := fun hh => hk (by rw [hid, hh])
        simp [hid, hkey]
      · rw [if_neg hid, if_neg hid, ih]

theorem lookupA_insertA {α : Type} (l : List (String × α)) (key id : String) (v : α) :
    lookupA (insertA l key v) id = if key = id then some v else lookupA l id := by
  induction l with
  | nil => simp [insertA, lookupA]
  | cons hd tl ih =>
    obtain ⟨k, w⟩ := hd
    simp only [insertA]
    by_cases hk : k = key
    · subst hk
      simp only [if_pos rfl, lookupA]
      by_cases hid : k = id <;> simp [hid]
    · rw [if_neg hk]
      simp only [lookupA]
      by_cases hid : k = id
      · subst hid
        have h2 : ¬key = k := fun hh => hk hh.symm
        simp [h2]
      · rw [if_neg hid, if_neg hid, ih]

theorem lookupA_stripFold (ks : List String) :
    ∀ (l : List (String × JValue)) (id : String),
      lookupA (ks.foldl (fun acc k => eraseA acc k) l) id =
        if id ∈ ks then none else lookupA l id := by
  induction ks with
  | nil => intro l id; simp
  | cons k ks ih =>
    intro l id
    simp only [List.foldl_cons]
    rw [ih]
    by_cases hmem : id ∈ ks
    · simp [hmem]
    · rw [if_neg hmem, lookupA_eraseA]
      by_cases hk : k = id
      · simp [hk]
      · have : ¬id ∈ k :: ks := by
          intro hh
          rcases List.mem_cons.mp hh with hh | hh
          · exact hk hh.symm
          · exact hmem hh
        rw [if_neg hk, if_neg this]

/-- Every object value stored in the map built by `geminiBuildOut` has
all strip keys absent. -/
theorem geminiBuildOut_stripped :
    ∀ (servers out0 out : List (String × JValue)),
      (∀ id kvs, lookupA out0 id = some (JValue.obj kvs) →
        ∀ k ∈ geminiStripKeys, lookupA kvs k = none) →
      geminiBuildOut servers out0 = .ok out →
      ∀ id kvs, lookupA out id = some (JValue.obj kvs) →
        ∀ k ∈ geminiStripKeys, lookupA kvs k = none := by
  intro servers
  induction servers with
  | nil =>
    intro out0 out h0 hb
    simp only [geminiBuildOut, Except.ok.injEq] at hb
    subst hb
    exact h0
  | cons hd rest ih =>
    intro out0 out h0 hb
    obtain ⟨id0, spec0⟩ := hd
    simp only [geminiBuildOut] at hb
    cases ho : jAsObj spec0 with
    | none => rw [ho] at hb; cases hb
    | some obj0 =>
      rw [ho] at hb
      dsimp only at hb
      cases he : geminiEffObj obj0 with
      | error e => rw [he] at hb; cases hb
      | ok obj1 =>
        rw [he] at hb
        dsimp only at hb
        refine ih _ _ ?_ hb
        intro id kvs hlk k hk
        rw [lookupA_insertA] at hlk
        by_cases hid : id0 = id
        · rw [if_pos hid] at hlk
          cases hlk
          unfold geminiTransformObj
          rw [lookupA_stripFold]
          rw [if_pos hk]
        · rw [if_neg hid] at hlk
          exact h0 id kvs hlk k hk

/-- C7 (gemini field rename and stripping): in the written gemini map,
an effective spec of type `http` has `url` renamed to `httpUrl`, one of
type `sse` keeps `url` unchanged, and every written spec has the
discriminant and the UI bookkeeping fields
(enabled/source/id/name/description/tags/homepage/docs) absent. -/
theorem gemini_export_field_shaping :
    (∀ obj1 : List (String × JValue),
      ((lookupA obj1 "type").bind jAsStr = some "http" →
        lookupA (geminiTransformObj obj1) "url" = none ∧
        ∀ v, lookupA obj1 "url" = some v →
          lookupA (geminiTransformObj obj1) "httpUrl" = some v) ∧
      ((lookupA obj1 "type").bind jAsStr = some "sse" →
        lookupA (geminiTransformObj obj1) "url" = lookupA obj1 "url")) ∧
    (∀ servers out id kvs, geminiBuildOut servers [] = .ok out →
      lookupA out id = some (JValue.obj kvs) →
      ∀ k ∈ geminiStripKeys, lookupA kvs k = none) := by
  constructor
  · intro obj1
    constructor
    · intro hhttp
      unfold geminiTransformObj
      rw [hhttp]
      simp only [show ((some "http" == some "http") = true) from rfl, if_true]
      constructor
      · cases hu : lookupA obj1 "url" with
        | none =>
          rw [lookupA_stripFold, if_neg (by decide)]
          exact hu
        | some url_value =>
          rw [lookupA_stripFold, if_neg (by decide), lookupA_insertA,
            if_neg (by decide), lookupA_eraseA, if_pos rfl]
      · intro v hu
        rw [hu]
        rw [lookupA_stripFold, if_neg (by decide), lookupA_insertA, if_pos rfl]
    · intro hsse
      unfold geminiTransformObj
      rw [hsse]
      simp only [show ((some "sse" == some "http") = false) from rfl,
        Bool.false_eq_true, if_false]
      rw [lookupA_stripFold, if_neg (by decide)]
  · intro servers out id kvs hb hlk k hk
    exact geminiBuildOut_stripped servers [] out (by intro id kvs h; cases h) hb
      id kvs hlk k hk

/-- Witness for C7 at a concrete http spec and a one-entry server map. -/
theorem gemini_export_field_shaping_witness :
    (lookupA (geminiTransformObj
        [("type", JValue.s "http"), ("url", JValue.s "u")]) "url" = none ∧
      ∀ v, lookupA [("type", JValue.s "http"), ("url", JValue.s "u")] "url" = some v →
        lookupA (geminiTransformObj
          [("type", JValue.s "http"), ("url", JValue.s "u")]) "httpUrl" = some v) ∧
    (∀ k ∈ geminiStripKeys,
      lookupA [("httpUrl", JValue.s "u")] k = none) := by
  constructor
  · exact (gemini_export_field_shaping.1
      [("type", JValue.s "http"), ("url", JValue.s "u")]).1 rfl
  · exact gemini_export_field_shaping.2
      [("a", JValue.obj [("type", JValue.s "http"), ("url", JValue.s "u")])]
      [("a", JValue.obj [("httpUrl", JValue.s "u")])] "a" [("httpUrl", JValue.s "u")]
      rfl rfl

/-- C6 (TOML exporter post-state): the written document has no `servers`
key under the legacy `mcp` table, has a top-level `mcp_servers` table
exactly when the enabled set is non-empty, and every top-level key other
than the touched `mcp` and `mcp_servers` is preserved unchanged. -/
theorem codex_export_doc_shape (enabled : List (String × JValue))
    (doc : List (String × TItem)) :
    (∀ kvs, (lookupA (syncCodexDoc enabled doc) "mcp" = some (.table kvs) ∨
        lookupA (syncCodexDoc enabled doc) "mcp" = some (.inlineTable kvs)) →
      lookupA kvs "servers" = none) ∧
    (containsA (syncCodexDoc enabled doc) "mcp_servers" = true ↔ enabled ≠ []) ∧
    (∀ k, k ≠ "mcp" → k ≠ "mcp_servers" →
      lookupA (syncCodexDoc enabled doc) k = lookupA doc k) := by
  have hmcp_ne : ("mcp_servers" : String) ≠ "mcp" := by decide
  have hclean_mcp : ∀ kvs,
      (lookupA (codexCleanLegacy doc) "mcp" = some (.table kvs) ∨
        lookupA (codexCleanLegacy doc) "mcp" = some (.inlineTable kvs)) →
      lookupA kvs "servers" = none := by
    intro kvs hk
    unfold codexCleanLegacy at hk
    cases hd : lookupA doc "mcp" with
    | none =>
      rw [hd] at hk
      rcases hk with hk | hk <;> rw [hd] at hk <;> cases hk
    | some item =>
      rw [hd] at hk
      cases item with
      | table kvs0 =>
        rw [lookupA_insertA, if_pos rfl] at hk
        rcases hk with hk | hk
        · cases hk
          rw [lookupA_eraseA, if_pos rfl]
        · cases hk
      | inlineTable kvs0 =>
        rw [lookupA_insertA, if_pos rfl] at hk
        rcases hk with hk | hk
        · cases hk
        · cases hk
          rw [lookupA_eraseA, if_pos rfl]
      | str v => rw [hd] at hk; rcases hk with hk | hk <;> cases hk
      | int n => rw [hd] at hk; rcases hk with hk | hk <;> cases hk
      | float tag => rw [hd] at hk; rcases hk with hk | hk <;> cases hk
      | bool v => rw [hd] at hk; rcases hk with hk | hk <;> cases hk
      | datetime tag => rw [hd] at hk; rcases hk with hk | hk <;> cases hk
      | arr xs => rw [hd] at hk; rcases hk with hk | hk <;> cases hk
  have hclean_other : ∀ k, k ≠ "mcp" →
      lookupA (codexCleanLegacy doc) k = lookupA doc k := by
    intro k hk
    unfold codexCleanLegacy
    cases hd : lookupA doc "mcp" with
    | none => rfl
    | some item =>
      cases item <;> try rfl
      · rw [lookupA_insertA, if_neg (fun hh => hk hh.symm)]
      · rw [lookupA_insertA, if_neg (fun hh => hk hh.symm)]
  refine ⟨?_, ?_, ?_⟩
  · intro kvs hk
    unfold syncCodexDoc at hk
    by_cases hemp : enabled.isEmpty
    · rw [if_pos hemp] at hk
      rw [lookupA_eraseA, if_neg hmcp_ne] at hk
      exact hclean_mcp kvs hk
    · rw [if_neg hemp] at hk
      rw [lookupA_insertA, if_neg hmcp_ne] at hk
      exact hclean_mcp kvs hk
  · unfold syncCodexDoc containsA
    by_cases hemp : enabled.isEmpty
    · rw [if_pos hemp]
      rw [lookupA_eraseA, if_pos rfl]
      simp only [Option.isSome_none, Bool.false_eq_true, false_iff, ne_eq,
        not_not]
      exact List.isEmpty_iff.mp hemp
    · rw [if_neg hemp]
      rw [lookupA_insertA, if_pos rfl]
      simp only [Option.isSome_some, true_iff, ne_eq]
      intro hh
      rw [hh] at hemp
      exact hemp rfl
  · intro k hk1 hk2
    unfold syncCodexDoc
    by_cases hemp : enabled.isEmpty
    · rw [if_pos hemp]
      rw [lookupA_eraseA, if_neg (fun hh => hk2 hh.symm)]
      exact hclean_other k hk1
    · rw [if_neg hemp]
      rw [lookupA_insertA, if_neg (fun hh => hk2 hh.symm)]
      exact hclean_other k hk1

/-- Witness for C6 at a document with a legacy `[mcp.servers.x]` table,
an unrelated top-level key, and one enabled server. -/
theorem codex_export_doc_shape_witness :
    lookupA ([] : List (String × TItem)) "servers" = none ∧
    (containsA (syncCodexDoc [("x", wSpecX)]
        [("mcp", TItem.table [("servers", TItem.table [])]),
         ("other", TItem.str "keep")]) "mcp_servers" = true ↔
      ([("x", wSpecX)] : List (String × JValue)) ≠ []) ∧
    lookupA (syncCodexDoc [("x", wSpecX)]
        [("mcp", TItem.table [("servers", TItem.table [])]),
         ("other", TItem.str "keep")]) "other" =
      lookupA [("mcp", TItem.table [("servers", TItem.table [])]),
         ("other", TItem.str "keep")] "other" := by
  obtain ⟨h1, h2, h3⟩ := codex_export_doc_shape [("x", wSpecX)]
    [("mcp", TItem.table [("servers", TItem.table [])]),
     ("other", TItem.str "keep")]
  exact ⟨h1 [] (Or.inl rfl), h2, h3 "other" (by decide) (by decide)⟩

/-! ## Key-set and length lemmas for the map model -/

theorem lookupA_eq_none_of_not_mem {α : Type} {l : List (String × α)} {a : String}
    (h : a ∉ l.map Prod.fst) : lookupA l a = none := by
  induction l with
  | nil => rfl
  | cons hd tl ih =>
    obtain ⟨k, w⟩ := hd
    simp only [List.map_cons, List.mem_cons, not_or] at h
    simp only [lookupA]
    rw [if_neg (fun hh => h.1 hh.symm)]
    exact ih h.2

theorem mem_keys_of_lookupA_some {α : Type} {l : List (String × α)} {a : String} {v : α}
    (h : lookupA l a = some v) : a ∈ l.map Prod.fst := by
  by_contra hc
  rw [lookupA_eq_none_of_not_mem hc] at h
  cases h

theorem eraseA_of_none {α : Type} {l : List (String × α)} {a : String}
    (h : lookupA l a = none) : eraseA l a = l := by
  induction l with
  | nil => rfl
  | cons hd tl ih =>
    obtain ⟨k, w⟩ := hd
    simp only [lookupA] at h
    by_cases hk : k = a
    · rw [if_pos hk] at h; cases h
    · rw [if_neg hk] at h
      have hp : (!(k == a)) = true := by simp [hk]
      simp only [eraseA, List.filter_cons, hp, if_true] at ih ⊢
      rw [ih h]

theorem keys_insertA_of_some {α : Type} {l : List (String × α)} {k : String} {w : α}
    (h : lookupA l k = some w) (v : α) :
    (insertA l k v).map Prod.fst = l.map Prod.fst := by
  induction l with
  | nil => cases h
  | cons hd tl ih =>
    obtain ⟨k0, w0⟩ := hd
    simp only [lookupA] at h
    simp only [insertA]
    by_cases hk : k0 = k
    · rw [if_pos hk]
      simp
    · rw [if_neg hk] at h ⊢
      simp only [List.map_cons]
      rw [ih h]

theorem length_insertA_of_some {α : Type} {l : List (String × α)} {k : String} {w : α}
    (h : lookupA l k = some w) (v : α) :
    (insertA l k v).length = l.length := by
  have := keys_insertA_of_some h v
  have h1 : ((insertA l k v).map Prod.fst).length = (l.map Prod.fst).length := by rw [this]
  simpa using h1

theorem keys_eraseA {α : Type} (l : List (String × α)) (a : String) :
    (eraseA l a).map Prod.fst = (l.map Prod.fst).filter (fun x => !(x == a)) := by
  induction l with
  | nil => rfl
  | cons hd tl ih =>
    obtain ⟨k, w⟩ := hd
    simp only [eraseA, List.filter_cons, List.map_cons] at ih ⊢
    by_cases hk : k = a
    · have hp : (!(k == a)) = false := by simp [hk]
      simp only [hp, Bool.false_eq_true, if_false]
      exact ih
    · have hp : (!(k == a)) = true := by simp [hk]
      simp only [hp, if_true, List.map_cons]
      rw [ih]

theorem length_eraseA_of_some {α : Type} {l : List (String × α)} {a : String} {v : α}
    (hnd : (l.map Prod.fst).Nodup) (h : lookupA l a = some v) :
    (eraseA l a).length + 1 = l.length := by
  induction l with
  | nil => cases h
  | cons hd tl ih =>
    obtain ⟨k, w⟩ := hd
    simp only [List.map_cons, List.nodup_cons] at hnd
    simp only [lookupA] at h
    by_cases hk : k = a
    · have hp : (!(k == a)) = false := by simp [hk]
      simp only [eraseA, List.filter_cons, hp, Bool.false_eq_true, if_false]
      have hnone : lookupA tl a = none := by
        apply lookupA_eq_none_of_not_mem
        rw [← hk]
        exact hnd.1
      rw [show List.filter (fun kv => !(kv.1 == a)) tl = eraseA tl a from rfl,
        eraseA_of_none hnone]
      simp
    · rw [if_neg hk] at h
      have hp : (!(k == a)) = true := by simp [hk]
      simp only [eraseA, List.filter_cons, hp, if_true, List.length_cons] at ih ⊢
      rw [← ih hnd.2 h]

/-! ## Phase-1 lemmas for `normalize_server_keys` -/

theorem jAsStr_eq_some {v : JValue} {s : String} (h : jAsStr v = some s) :
    v = .s s := by
  cases v <;> simp [jAsStr] at h
  rw [h]

theorem phase1_keys (m : List (String × JValue)) :
    (normalizePhase1 m).1.map Prod.fst = m.map Prod.fst := by
  induction m with
  | nil => rfl
  | cons hd tl ih =>
    obtain ⟨k, v⟩ := hd
    simp only [normalizePhase1, List.map_cons]
    rw [ih]

theorem phase1_length (m : List (String × JValue)) :
    (normalizePhase1 m).1.length = m.length := by
  have h := phase1_keys m
  have h1 : ((normalizePhase1 m).1.map Prod.fst).length = (m.map Prod.fst).length := by
    rw [h]
  simpa using h1

theorem normalizeEntryVal_obj_target {k : String} {v : JValue} {o' : List (String × JValue)}
    (h : (normalizeEntryVal k v).1 = .obj o') :
    ∃ t, (normalizeEntryVal k v).2.2 = some t ∧ lookupA o' "id" = some (.s t) := by
  cases v with
  | obj o =>
    simp only [normalizeEntryVal] at h ⊢
    cases hid : lookupA o "id" with
    | none =>
      rw [hid] at h
      dsimp only at h ⊢
      injection h with h
      subst h
      exact ⟨k, rfl, by rw [lookupA_insertA, if_pos rfl]⟩
    | some idv =>
      rw [hid] at h
      dsimp only at h ⊢
      cases hstr : jAsStr idv with
      | none =>
        rw [hstr] at h
        dsimp only at h ⊢
        injection h with h
        subst h
        exact ⟨k, rfl, by rw [lookupA_insertA, if_pos rfl]⟩
      | some id_str =>
        rw [hstr] at h
        dsimp only at h ⊢
        by_cases hemp : (rustTrim id_str).isEmpty
        · rw [if_pos hemp] at h ⊢
          injection h with h
          subst h
          exact ⟨k, rfl, by rw [lookupA_insertA, if_pos rfl]⟩
        · rw [if_neg hemp] at h ⊢
          by_cases hne : rustTrim id_str ≠ id_str
          · rw [if_pos hne] at h ⊢
            injection h with h
            subst h
            exact ⟨rustTrim id_str, rfl, by rw [lookupA_insertA, if_pos rfl]⟩
          · rw [if_neg hne] at h ⊢
            injection h with h
            subst h
            refine ⟨rustTrim id_str, rfl, ?_⟩
            rw [hid, jAsStr_eq_some hstr]
            push_neg at hne
            rw [hne]
  | null => cases h
  | b bv => cases h
  | num n => cases h
  | s sv => cases h
  | arr xs => cases h

theorem normalizeEntryVal_obj_of_obj {k : String} {o : List (String × JValue)} :
    ∃ o', (normalizeEntryVal k (.obj o)).1 = .obj o' := by
  simp only [normalizeEntryVal]
  cases hid : lookupA o "id" with
  | none => exact ⟨_, rfl⟩
  | some idv =>
    dsimp only
    cases hstr : jAsStr idv with
    | none => exact ⟨_, rfl⟩
    | some id_str =>
      dsimp only
      by_cases hemp : (rustTrim id_str).isEmpty
      · rw [if_pos hemp]
        exact ⟨_, rfl⟩
      · rw [if_neg hemp]
        by_cases hne : rustTrim id_str ≠ id_str
        · rw [if_pos hne]
          exact ⟨_, rfl⟩
        · rw [if_neg hne]
          exact ⟨_, rfl⟩

theorem normalizeEntryVal_target_obj {k : String} {v : JValue} {t : String}
    (h : (normalizeEntryVal k v).2.2 = some t) :
    ∃ o', (normalizeEntryVal k v).1 = .obj o' ∧ lookupA o' "id" = some (.s t) := by
  cases v with
  | obj o =>
    obtain ⟨o', ho'⟩ := normalizeEntryVal_obj_of_obj (k := k) (o := o)
    obtain ⟨t', ht', hid⟩ := normalizeEntryVal_obj_target ho'
    rw [h] at ht'
    injection ht' with ht'
    subst ht'
    exact ⟨o', ho', hid⟩
  | null => cases h
  | b bv => cases h
  | num n => cases h
  | s sv => cases h
  | arr xs => cases h

theorem phase1_entries (m : List (String × JValue)) :
    ∀ k o, lookupA (normalizePhase1 m).1 k = some (.obj o) →
      ∃ t, lookupA o "id" = some (.s t) ∧
        (t = k ∨ (k, t) ∈ (normalizePhase1 m).2.2) := by
  induction m with
  | nil => intro k o h; cases h
  | cons hd tl ih =>
    obtain ⟨k0, v0⟩ := hd
    intro k o h
    simp only [normalizePhase1, lookupA] at h ⊢
    by_cases hk : k0 = k
    · rw [if_pos hk] at h
      injection h with h
      obtain ⟨t, ht, hid⟩ := normalizeEntryVal_obj_target h
      refine ⟨t, hid, ?_⟩
      rw [ht]
      dsimp only
      by_cases hne : t ≠ k0
      · right
        rw [if_pos hne]
        rw [← hk]
        exact List.mem_cons_self _ _
      · left
        push_neg at hne
        rw [hne, hk]
    · rw [if_neg hk] at h
      obtain ⟨t, hid, hmem⟩ := ih k o h
      refine ⟨t, hid, ?_⟩
      rcases hmem with hmem | hmem
      · exact Or.inl hmem
      · right
        cases he : (normalizeEntryVal k0 v0).2.2 with
        | none => exact hmem
        | some t0 =>
          dsimp only
          by_cases hne : t0 ≠ k0
          · rw [if_pos hne]
            exact List.mem_cons_of_mem _ hmem
          · rw [if_neg hne]
            exact hmem

theorem phase1_renames_keys_sublist (m : List (String × JValue)) :
    ((normalizePhase1 m).2.2.map Prod.fst).Sublist (m.map Prod.fst) := by
  induction m with
  | nil => simp [normalizePhase1]
  | cons hd tl ih =>
    obtain ⟨k0, v0⟩ := hd
    simp only [normalizePhase1, List.map_cons]
    cases he : (normalizeEntryVal k0 v0).2.2 with
    | none => exact ih.cons _
    | some t0 =>
      dsimp only
      by_cases hne : t0 ≠ k0
      · rw [if_pos hne]
        simp only [List.map_cons]
        exact ih.cons₂ _
      · rw [if_neg hne]
        exact ih.cons _

theorem phase1_renames (m : List (String × JValue))
    (hnd : (m.map Prod.fst).Nodup) :
    ∀ a b, (a, b) ∈ (normalizePhase1 m).2.2 →
      a ≠ b ∧ ∃ o, lookupA (normalizePhase1 m).1 a = some (.obj o) ∧
        lookupA o "id" = some (.s b) := by
  induction m with
  | nil => intro a b h; cases h
  | cons hd tl ih =>
    obtain ⟨k0, v0⟩ := hd
    simp only [List.map_cons, List.nodup_cons] at hnd
    intro a b h
    simp only [normalizePhase1, lookupA] at h ⊢
    have htail : (a, b) ∈ (normalizePhase1 tl).2.2 →
        a ≠ b ∧ ∃ o, (if k0 = a then some (normalizeEntryVal k0 v0).1
            else lookupA (normalizePhase1 tl).1 a) = some (.obj o) ∧
          lookupA o "id" = some (.s b) := by
      intro hmem
      obtain ⟨hab, o, hlk, hid⟩ := ih hnd.2 a b hmem
      have ha : a ∈ tl.map Prod.fst := by
        have := mem_keys_of_lookupA_some hlk
        rwa [phase1_keys] at this
      have hk0a : ¬k0 = a := fun hh => hnd.1 (hh ▸ ha)
      rw [if_neg hk0a]
      exact ⟨hab, o, hlk, hid⟩
    cases he : (normalizeEntryVal k0 v0).2.2 with
    | none =>
      rw [he] at h
      exact htail h
    | some t0 =>
      rw [he] at h
      dsimp only at h
      by_cases hne : t0 ≠ k0
      · rw [if_pos hne] at h
        rcases List.mem_cons.mp h with h | h
        · injection h with h1 h2
          subst h1
          subst h2
          obtain ⟨o', ho', hid⟩ := normalizeEntryVal_target_obj he
          refine ⟨fun hh => hne (hh.symm), o', ?_, hid⟩
          rw [if_pos rfl, ho']
        · exact htail h
      · rw [if_neg hne] at h
        exact htail h

theorem lookupA_erase_append_ne {m : List (String × JValue)} {a b k : String}
    {v' : JValue} (hka : a ≠ k) (hkb : b ≠ k) :
    lookupA (eraseA m a ++ [(b, v')]) k = lookupA m k := by
  cases hm : lookupA m k with
  | some w =>
    have h1 : lookupA (eraseA m a) k = some w := by
      rw [lookupA_eraseA, if_neg hka]; exact hm
    exact lookupA_append_of_some _ h1
  | none =>
    have h1 : lookupA (eraseA m a) k = none := by
      rw [lookupA_eraseA, if_neg hka]; exact hm
    rw [lookupA_append_of_none _ h1]
    simp [lookupA, if_neg hkb]

theorem lookupA_erase_append_self {m : List (String × JValue)} {a b : String}
    {v' : JValue} (hab : a ≠ b) (hb : lookupA m b = none) :
    lookupA (eraseA m a ++ [(b, v')]) b = some v' := by
  have h1 : lookupA (eraseA m a) b = none := by
    rw [lookupA_eraseA, if_neg hab]; exact hb
  rw [lookupA_append_of_none _ h1]
  simp [lookupA]

theorem lookupA_isSome_of_mem_keys {α : Type} {l : List (String × α)} {a : String}
    (h : a ∈ l.map Prod.fst) : ∃ v, lookupA l a = some v := by
  induction l with
  | nil => cases h
  | cons hd tl ih =>
    obtain ⟨k, w⟩ := hd
    by_cases hk : k = a
    · exact ⟨w, by simp [lookupA, hk]⟩
    · simp only [List.map_cons, List.mem_cons] at h
      rcases h with h | h
      · exact absurd h.symm hk
      · obtain ⟨v, hv⟩ := ih h
        exact ⟨v, by simp only [lookupA, if_neg hk]; exact hv⟩

theorem phase2_fold_invariant :
    ∀ (rs : List (String × String)) (m : List (String × JValue)) (cnt : Nat),
      (m.map Prod.fst).Nodup →
      (rs.map Prod.fst).Nodup →
      (∀ a b, (a, b) ∈ rs → a ≠ b ∧ ∃ o, lookupA m a = some (.obj o) ∧
        lookupA o "id" = some (.s b)) →
      (∀ k o, lookupA m k = some (.obj o) →
        ∃ t, lookupA o "id" = some (.s t) ∧ (t = k ∨ (k, t) ∈ rs)) →
      (∀ k o, lookupA (rs.foldl (fun acc rn =>
          let a := applyRename acc.1 rn.1 rn.2
          (a.1, acc.2 + a.2)) (m, cnt)).1 k = some (.obj o) →
        lookupA o "id" = some (.s k)) ∧
      (rs.foldl (fun acc rn =>
          let a := applyRename acc.1 rn.1 rn.2
          (a.1, acc.2 + a.2)) (m, cnt)).1.length = m.length := by
  intro rs
  induction rs with
  | nil =>
    intro m cnt hndm _ _ hinv
    refine ⟨?_, rfl⟩
    intro k o h
    obtain ⟨t, hid, ht⟩ := hinv k o h
    rcases ht with ht | ht
    · rw [← ht]; exact hid
    · cases ht
  | cons rn rs ih =>
    intro m cnt hndm hndr hrs hinv
    obtain ⟨a, b⟩ := rn
    obtain ⟨hab, o0, hlka, hido⟩ := hrs a b (List.mem_cons_self _ _)
    simp only [List.map_cons, List.nodup_cons] at hndr
    have hrs_tail_ne : ∀ a' b', (a', b') ∈ rs → a' ≠ a := by
      intro a' b' hmem hh
      exact hndr.1 (hh ▸ (List.mem_map_of_mem Prod.fst hmem))
    simp only [List.foldl_cons]
    by_cases hcb : containsA m b = true
    · -- collision branch: the entry keeps its key, its embedded id is reset
      have happly : applyRename m a b =
          (insertA m a (.obj (insertA o0 "id" (.s a))), 1) := by
        unfold applyRename
        rw [if_neg hab, if_pos hcb, hlka]
        dsimp only
        rw [hido]
        dsimp only
        rw [if_pos (decide_eq_true (show b ≠ a from fun hh => hab hh.symm))]
      rw [happly]
      dsimp only
      have hlka' : lookupA (insertA m a (.obj (insertA o0 "id" (.s a)))) a =
          some (.obj (insertA o0 "id" (.s a))) := by
        rw [lookupA_insertA, if_pos rfl]
      refine (ih (insertA m a (.obj (insertA o0 "id" (.s a)))) (cnt + 1) ?_ hndr.2 ?_ ?_).imp
        id (fun hlen => ?_)
      · rw [keys_insertA_of_some hlka]
        exact hndm
      · intro a' b' hmem
        obtain ⟨hab', o', hlk', hid'⟩ := hrs a' b' (List.mem_cons_of_mem _ hmem)
        have hne : a ≠ a' := fun hh => hrs_tail_ne a' b' hmem hh.symm
        refine ⟨hab', o', ?_, hid'⟩
        rw [lookupA_insertA, if_neg hne]
        exact hlk'
      · intro k o h
        by_cases hk : a = k
        · rw [lookupA_insertA, if_pos hk] at h
          injection h with h
          injection h with h
          subst h
          refine ⟨a, ?_, Or.inl hk⟩
          rw [lookupA_insertA, if_pos rfl]
        · rw [lookupA_insertA, if_neg hk] at h
          obtain ⟨t, hid, ht⟩ := hinv k o h
          rcases ht with ht | ht
          · exact ⟨t, hid, Or.inl ht⟩
          · rcases List.mem_cons.mp ht with ht | ht
            · injection ht with h1 h2
              exact absurd h1.symm hk
            · exact ⟨t, hid, Or.inr ht⟩
      · rw [hlen, length_insertA_of_some hlka]
    · -- no collision: the entry moves to its embedded id
      have hlkb : lookupA m b = none := by
        unfold containsA at hcb
        cases hx : lookupA m b with
        | none => rfl
        | some w => rw [hx] at hcb; simp at hcb
      have happly : applyRename m a b =
          (eraseA m a ++ [(b, .obj (insertA o0 "id" (.s b)))], 1) := by
        unfold applyRename
        rw [if_neg hab, if_neg hcb, hlka]
      rw [happly]
      dsimp only
      have hbn : b ∉ m.map Prod.fst := by
        intro hh
        obtain ⟨w, hw⟩ := lookupA_isSome_of_mem_keys hh
        rw [hw] at hlkb
        cases hlkb
      have hbne : ∀ x ∈ m.map Prod.fst, x ≠ b := fun x hx hh => hbn (hh ▸ hx)
      refine (ih (eraseA m a ++ [(b, .obj (insertA o0 "id" (.s b)))]) (cnt + 1)
        ?_ hndr.2 ?_ ?_).imp id (fun hlen => ?_)
      · rw [List.map_append, keys_eraseA]
        refine List.Nodup.append (hndm.filter _) (List.nodup_singleton _) ?_
        intro x hx hxb
        rw [List.map_singleton, List.mem_singleton] at hxb
        exact hbne x (List.mem_of_mem_filter hx) hxb
      · intro a' b' hmem
        obtain ⟨hab', o', hlk', hid'⟩ := hrs a' b' (List.mem_cons_of_mem _ hmem)
        have hne1 : a ≠ a' := fun hh => hrs_tail_ne a' b' hmem hh.symm
        have hne2 : b ≠ a' :=
          fun hh => hbne a' (mem_keys_of_lookupA_some hlk') hh.symm
        refine ⟨hab', o', ?_, hid'⟩
        rw [lookupA_erase_append_ne hne1 hne2]
        exact hlk'
      · intro k o h
        by_cases hk : k = b
        · subst hk
          rw [lookupA_erase_append_self hab hlkb] at h
          injection h with h
          injection h with h
          subst h
          refine ⟨k, ?_, Or.inl rfl⟩
          rw [lookupA_insertA, if_pos rfl]
        · by_cases hka : k = a
          · subst hka
            have h1 : lookupA (eraseA m k) k = none := by
              rw [lookupA_eraseA, if_pos rfl]
            rw [lookupA_append_of_none _ h1] at h
            simp only [lookupA] at h
            rw [if_neg (fun hh => hab hh.symm)] at h
            cases h
          · have hne1 : a ≠ k := fun hh => hka hh.symm
            have hne2 : b ≠ k := fun hh => hk hh.symm
            rw [lookupA_erase_append_ne hne1 hne2] at h
            obtain ⟨t, hid, ht⟩ := hinv k o h
            rcases ht with ht | ht
            · exact ⟨t, hid, Or.inl ht⟩
            · rcases List.mem_cons.mp ht with ht | ht
              · injection ht with h1 h2
                exact absurd h1 hka
              · exact ⟨t, hid, Or.inr ht⟩
      · rw [hlen, List.length_append, List.length_singleton,
          length_eraseA_of_some hndm hlka]

/-- Counterexample to C9 as stated: in the singleton map
`{"a" ↦ {id: "b"}}` (no collision possible), the claim predicts the
entry keeps key `a` with its embedded id rewritten to `a`; the code
instead renames the map key to the embedded id, so key `a` disappears
and the entry lives at key `b`. -/
theorem embedded_id_repair_cex :
    lookupA (normalize_server_keys [("a", JValue.obj [("id", JValue.s "b")])]).1 "a" =
        none ∧
    lookupA (normalize_server_keys [("a", JValue.obj [("id", JValue.s "b")])]).1 "b" =
        some (JValue.obj [("id", JValue.s "b")]) :=
  ⟨rfl, rfl⟩

/-- C9 amended: normalization repairs a mismatched embedded id by
renaming the map key to the (trimmed) embedded id — a missing, blank or
non-string id is instead rewritten to the map key — with collision
fallback keeping the original key and resetting the embedded id to it;
for every server map with distinct keys, after normalization every
object entry's embedded id equals its map key and no entries are lost
(the entry count is preserved). -/
theorem embedded_id_normalize_invariant (m : List (String × JValue))
    (hnd : (m.map Prod.fst).Nodup) :
    (∀ k o, lookupA (normalize_server_keys m).1 k = some (JValue.obj o) →
      lookupA o "id" = some (JValue.s k)) ∧
    (normalize_server_keys m).1.length = m.length := by
  have hkeys := phase1_keys m
  have hnd1 : ((normalizePhase1 m).1.map Prod.fst).Nodup := by
    rw [hkeys]; exact hnd
  have hndr : ((normalizePhase1 m).2.2.map Prod.fst).Nodup :=
    (phase1_renames_keys_sublist m).nodup hnd
  obtain ⟨h1, h2⟩ := phase2_fold_invariant (normalizePhase1 m).2.2
    (normalizePhase1 m).1 (normalizePhase1 m).2.1 hnd1 hndr
    (phase1_renames m hnd) (phase1_entries m)
  exact ⟨h1, by rw [show (normalize_server_keys m).1 =
    ((normalizePhase1 m).2.2.foldl (fun acc rn =>
      let a := applyRename acc.1 rn.1 rn.2
      (a.1, acc.2 + a.2)) ((normalizePhase1 m).1, (normalizePhase1 m).2.1)).1 from rfl,
    h2, phase1_length]⟩

/-- Witness for the amended C9 theorem at the counterexample's input. -/
theorem embedded_id_normalize_invariant_witness :
    lookupA [("id", JValue.s "b")] "id" = some (JValue.s "b") ∧
    (normalize_server_keys [("a", JValue.obj [("id", JValue.s "b")])]).1.length = 1 :=
  ⟨(embedded_id_normalize_invariant [("a", JValue.obj [("id", JValue.s "b")])]
      (by decide)).1 "b" [("id", JValue.s "b")] rfl,
    (embedded_id_normalize_invariant [("a", JValue.obj [("id", JValue.s "b")])]
      (by decide)).2⟩

theorem McpApps.get_set_ne (a : McpApps) {app app' : AppType} (b : Bool)
    (h : app' ≠ app) :
    (a.set_enabled_for app' b).get_enabled_for app = a.get_enabled_for app := by
  cases app <;> cases app' <;> first
    | rfl
    | exact absurd rfl h

/-- A fold of entries whose keys avoid `id` does not change the binding
at `id`. -/
theorem migrateFold_untouched (app : AppType) (l : List (String × JValue)) :
    ∀ (u : List (String × McpServer)) (id : String), id ∉ l.map Prod.fst →
      lookupA (l.foldl (fun u kv => migrateEntry app u kv.1 kv.2) u) id =
        lookupA u id := by
  induction l with
  | nil => intro u id _; rfl
  | cons hd tl ih =>
    intro u id hmem
    obtain ⟨k, e⟩ := hd
    simp only [List.map_cons, List.mem_cons, not_or] at hmem
    simp only [List.foldl_cons]
    rw [ih _ _ hmem.2]
    unfold migrateEntry
    cases lookupA u k <;>
      simp only <;>
      rw [lookupA_insertA, if_neg (fun hh => hmem.1 hh.symm)]

/-- Processing a client's own list sets that client's flag for an entry
without a boolean `enabled` field. -/
theorem migrateFold_establishes (app : AppType) (l : List (String × JValue)) :
    ∀ (u : List (String × McpServer)) (id : String) (e : JValue),
      (l.map Prod.fst).Nodup → (id, e) ∈ l →
      ((jGet e "enabled").bind jAsBool).getD true = true →
      ∃ srv, lookupA (l.foldl (fun u kv => migrateEntry app u kv.1 kv.2) u) id =
        some srv ∧ srv.apps.get_enabled_for app = true := by
  induction l with
  | nil => intro u id e _ hmem; cases hmem
  | cons hd tl ih =>
    intro u id e hnd hmem hen
    obtain ⟨k, e0⟩ := hd
    simp only [List.map_cons, List.nodup_cons] at hnd
    simp only [List.foldl_cons]
    rcases List.mem_cons.mp hmem with hmem | hmem
    · injection hmem with h1 h2
      subst h1
      subst h2
      rw [migrateFold_untouched app tl _ id hnd.1]
      unfold migrateEntry
      rw [hen]
      have hself : ∀ (X : McpServer), lookupA (insertA u id X) id = some X :=
        fun X => by rw [lookupA_insertA, if_pos rfl]
      cases hu : lookupA u id with
      | some existing => exact ⟨_, hself _, McpApps.get_set_self _ _ _⟩
      | none => exact ⟨_, hself _, McpApps.get_set_self _ _ _⟩
    · exact ih _ id e hnd.2 hmem hen

/-- Processing another client's list preserves a set flag. -/
theorem migrateFold_preserves (app app' : AppType) (l : List (String × JValue))
    (hne : app' ≠ app) :
    ∀ (u : List (String × McpServer)) (id : String) (srv : McpServer),
      lookupA u id = some srv → srv.apps.get_enabled_for app = true →
      ∃ srv', lookupA (l.foldl (fun u kv => migrateEntry app' u kv.1 kv.2) u) id =
        some srv' ∧ srv'.apps.get_enabled_for app = true := by
  induction l with
  | nil => intro u id srv h hf; exact ⟨srv, h, hf⟩
  | cons hd tl ih =>
    intro u id srv h hf
    obtain ⟨k, e⟩ := hd
    simp only [List.foldl_cons]
    by_cases hk : k = id
    · subst hk
      refine ih _ k { srv with apps := srv.apps.set_enabled_for app' (((jGet e "enabled").bind jAsBool).getD true) } ?_ ?_
      · unfold migrateEntry
        rw [h]
        dsimp only
        rw [lookupA_insertA, if_pos rfl]
      · show (srv.apps.set_enabled_for app' (((jGet e "enabled").bind jAsBool).getD true)).get_enabled_for app = true
        rw [McpApps.get_set_ne _ _ hne]
        exact hf
    · refine ih _ id srv ?_ hf
      unfold migrateEntry
      cases hu : lookupA u k <;>
        dsimp only <;>
        rw [lookupA_insertA, if_neg hk] <;>
        exact h

/-- C10 (implicit enabled default in the legacy migration): a legacy
entry of client `app` whose JSON object has no boolean `enabled` field
is treated as enabled — the migrated unified server has that client's
flag set to true. -/
theorem legacy_migration_enabled_default
    (claude codex gemini : List (String × JValue)) (app : AppType)
    (id : String) (e : JValue)
    (hnd : ((legacyFor app claude codex gemini).map Prod.fst).Nodup)
    (hmem : (id, e) ∈ legacyFor app claude codex gemini)
    (habs : (jGet e "enabled").bind jAsBool = none) :
    ∃ srv, lookupA (migrate_mcp_to_unified claude codex gemini) id = some srv ∧
      srv.apps.get_enabled_for app = true := by
  have hen : ((jGet e "enabled").bind jAsBool).getD true = true := by
    rw [habs]; rfl
  unfold migrate_mcp_to_unified
  cases app with
  | claude =>
    obtain ⟨srv, h1, hf1⟩ := migrateFold_establishes .claude claude [] id e hnd hmem hen
    obtain ⟨srv2, h2, hf2⟩ := migrateFold_preserves .claude .codex codex
      (by intro hh; cases hh) _ id srv h1 hf1
    exact migrateFold_preserves .claude .gemini gemini
      (by intro hh; cases hh) _ id srv2 h2 hf2
  | codex =>
    obtain ⟨srv, h1, hf1⟩ := migrateFold_establishes .codex codex _ id e hnd hmem hen
    exact migrateFold_preserves .codex .gemini gemini
      (by intro hh; cases hh) _ id srv h1 hf1
  | gemini =>
    exact migrateFold_establishes .gemini gemini _ id e hnd hmem hen

/-- Witness for C10: one legacy claude entry carrying only a spec and no
`enabled` field ends up in the unified store with the claude flag on. -/
theorem legacy_migration_enabled_default_witness :
    ∃ srv, lookupA (migrate_mcp_to_unified
        [("a", JValue.obj [("server", wSpecX)])] [] []) "a" = some srv ∧
      srv.apps.get_enabled_for .claude = true :=
  legacy_migration_enabled_default [("a", JValue.obj [("server", wSpecX)])] [] []
    .claude "a" (JValue.obj [("server", wSpecX)]) (by decide)
    (List.mem_cons_self _ _) rfl

theorem isOkE_eq_ok {x : Except String Unit} (h : isOkE x = true) : x = .ok () := by
  cases x with
  | ok u => cases u; rfl
  | error e => simp [isOkE] at h

theorem migrationV0Columns_valid :
    migrationV0Columns.all (fun tc => isOkE (validate_identifier tc.1 "table name") &&
      isOkE (validate_identifier tc.2.1 "column name")) = true := by decide

theorem find?_map_keepPred (l : List (String × List String))
    (f : String × List String → String × List String)
    (p : String × List String → Bool) (hp : ∀ x, p (f x) = p x) :
    (l.map f).find? p = (l.find? p).map f := by
  induction l with
  | nil => rfl
  | cons hd tl ih =>
    simp only [List.map_cons, List.find?_cons]
    rw [hp hd]
    cases hx : p hd <;> simp [hx, ih]

theorem any_map_keepPred (l : List (String × List String))
    (f : String × List String → String × List String)
    (p : String × List String → Bool) (hp : ∀ x, p (f x) = p x) :
    (l.map f).any p = l.any p := by
  induction l with
  | nil => rfl
  | cons hd tl ih =>
    simp only [List.map_cons, List.any_cons]
    rw [hp hd, ih]

theorem eqIgnoreAsciiCase_self (s : String) : eqIgnoreAsciiCase s s = true := by
  simp [eqIgnoreAsciiCase]

theorem tableExistsB_find {d : DbState} {table : String}
    (h : tableExistsB d table = true) :
    ∃ tb, d.tables.find? (fun t => eqIgnoreAsciiCase t.1 table) = some tb := by
  unfold tableExistsB at h
  rw [List.any_eq_true] at h
  obtain ⟨x, hx, hpx⟩ := h
  cases hfind : d.tables.find? (fun t => eqIgnoreAsciiCase t.1 table) with
  | some tb => exact ⟨tb, rfl⟩
  | none =>
    have := List.find?_eq_none.mp hfind x hx
    rw [hpx] at this
    cases this rfl

theorem add_column_ok {d : DbState} {table column : String} (defn : String)
    (hvt : validate_identifier table "table name" = .ok ())
    (hvc : validate_identifier column "column name" = .ok ())
    (hte : tableExistsB d table = true) :
    ∃ d' b, add_column_if_missing d table column defn = .ok (d', b) ∧
      d'.version = d.version ∧
      (∀ t', tableExistsB d' t' = tableExistsB d t') ∧
      hasColumnB d' table column = true ∧
      (∀ t' c', hasColumnB d t' c' = true → hasColumnB d' t' c' = true) := by
  unfold add_column_if_missing table_exists has_column
  rw [hvt, hvc]
  simp only [bind, Except.bind, hte, Bool.not_true, Bool.false_eq_true, if_false]
  by_cases hc : hasColumnB d table column
  · rw [if_pos hc]
    exact ⟨d, false, rfl, rfl, fun _ => rfl, hc, fun _ _ h => h⟩
  · rw [if_neg hc]
    have hp : ∀ (q : String → Bool) (x : String × List String),
        (fun t : String × List String => q t.1)
            ((fun t : String × List String =>
              if eqIgnoreAsciiCase t.1 table then (t.1, t.2 ++ [column]) else t) x) =
          (fun t : String × List String => q t.1) x := by
      intro q x
      by_cases hx : eqIgnoreAsciiCase x.1 table <;> simp [hx]
    refine ⟨_, true, rfl, rfl, ?_, ?_, ?_⟩
    · intro t'
      unfold tableExistsB
      dsimp only
      exact any_map_keepPred d.tables _ _ (hp (fun s => eqIgnoreAsciiCase s t'))
    · obtain ⟨tb, htb⟩ := tableExistsB_find hte
      have hptb : eqIgnoreAsciiCase tb.1 table = true := by
        have h0 := List.find?_some htb
        simpa using h0
      unfold hasColumnB
      dsimp only
      rw [find?_map_keepPred d.tables _ _ (hp (fun s => eqIgnoreAsciiCase s table)), htb]
      simp only [Option.map_some']
      rw [if_pos hptb]
      simp [eqIgnoreAsciiCase_self]
    · intro t' c' h
      unfold hasColumnB at h ⊢
      dsimp only
      rw [find?_map_keepPred d.tables _ _ (hp (fun s => eqIgnoreAsciiCase s t'))]
      cases hfind : d.tables.find? (fun t => eqIgnoreAsciiCase t.1 t') with
      | none => rw [hfind] at h; cases h
      | some tb =>
        rw [hfind] at h
        dsimp only at h
        simp only [Option.map_some']
        by_cases hx : eqIgnoreAsciiCase tb.1 table
        · rw [if_pos hx]
          simp only [List.any_append]
          rw [h]
          rfl
        · rw [if_neg hx]
          exact h

theorem migrate_fold_ok :
    ∀ (cols : List (String × String × String)) (d : DbState),
      (∀ tc ∈ cols, validate_identifier tc.1 "table name" = .ok () ∧
        validate_identifier tc.2.1 "column name" = .ok ()) →
      (∀ tc ∈ cols, tableExistsB d tc.1 = true) →
      ∃ d', cols.foldlM (fun d tc => do
          let r ← add_column_if_missing d tc.1 tc.2.1 tc.2.2
          pure r.1) d = .ok d' ∧
        d'.version = d.version ∧
        (∀ t', tableExistsB d' t' = tableExistsB d t') ∧
        (∀ tc ∈ cols, hasColumnB d' tc.1 tc.2.1 = true) ∧
        (∀ t' c', hasColumnB d t' c' = true → hasColumnB d' t' c' = true) := by
  intro cols
  induction cols with
  | nil =>
    intro d _ _
    exact ⟨d, rfl, rfl, fun _ => rfl, fun _ h => absurd h (List.not_mem_nil _),
      fun _ _ h => h⟩
  | cons tc cols ih =>
    intro d hval hte
    obtain ⟨hvt, hvc⟩ := hval tc (List.mem_cons_self _ _)
    obtain ⟨d1, b, hadd, hver1, hte1, hcol1, hmono1⟩ :=
      add_column_ok tc.2.2 hvt hvc (hte tc (List.mem_cons_self _ _))
    obtain ⟨d', hfold, hver', hte', hcol', hmono'⟩ := ih d1
      (fun tc htc => hval tc (List.mem_cons_of_mem _ htc))
      (fun tc htc => by rw [hte1]; exact hte tc (List.mem_cons_of_mem _ htc))
    refine ⟨d', ?_, ?_, ?_, ?_, ?_⟩
    · simp only [List.foldlM_cons, bind, Except.bind, hadd]
      exact hfold
    · rw [hver', hver1]
    · intro t'; rw [hte' t', hte1 t']
    · intro tc0 htc0
      rcases List.mem_cons.mp htc0 with htc0 | htc0
      · subst htc0
        exact hmono' _ _ hcol1
      · exact hcol' tc0 htc0
    · intro t' c' h
      exact hmono' t' c' (hmono1 t' c' h)

/-- Counterexample to C4 as stated: running the migration alone on a
version-0 store with no tables at all fails (the first
`add_column_if_missing` call errors because `providers` does not
exist), so not every version-0 store migrates successfully. -/
theorem schema_migration_cex :
    apply_schema_migrations_on_conn { tables := [], version := 0 } =
      ({ tables := [], version := 0 },
        Except.error "Table providers does not exist, cannot add column category") := rfl

/-- C4 amended: for a store stamped v with 0 ≤ v < CURRENT in which
every table touched by the migration exists (as holds after table
creation or on the legacy layout), the migration succeeds and stamps
CURRENT with every migration-managed column present; a store stamped
CURRENT + 1 makes the migration fail with the store left unchanged. -/
theorem schema_migration_monotonic :
    (∀ d : DbState, 0 ≤ d.version → d.version < SCHEMA_VERSION →
      (∀ tc ∈ migrationV0Columns, tableExistsB d tc.1 = true) →
      ∃ d', apply_schema_migrations_on_conn d = (d', .ok ()) ∧
        d'.version = SCHEMA_VERSION ∧
        ∀ tc ∈ migrationV0Columns, hasColumnB d' tc.1 tc.2.1 = true) ∧
    (∀ d : DbState, d.version = SCHEMA_VERSION + 1 →
      apply_schema_migrations_on_conn d = (d, .error "Database version too new")) := by
  constructor
  · intro d h0 h1 htab
    have hv : d.version = 0 := by
      unfold SCHEMA_VERSION at h1
      omega
    have hval : ∀ tc ∈ migrationV0Columns,
        validate_identifier tc.1 "table name" = .ok () ∧
        validate_identifier tc.2.1 "column name" = .ok () := by
      intro tc htc
      have := List.all_eq_true.mp migrationV0Columns_valid tc htc
      rw [Bool.and_eq_true] at this
      exact ⟨isOkE_eq_ok this.1, isOkE_eq_ok this.2⟩
    obtain ⟨d', hfold, hver, _, hcol, _⟩ := migrate_fold_ok migrationV0Columns d hval htab
    have hbody : migrateBody d = .ok { d' with version := SCHEMA_VERSION } := by
      unfold migrateBody set_user_version SCHEMA_VERSION
      rw [hv]
      rw [if_pos (by norm_num : (0 : Int) < 1), if_pos rfl]
      have hfold2 := hfold
      simp only [bind, Except.bind] at hfold2
      simp only [bind, Except.bind, hfold2]
      rw [if_neg (by norm_num : ¬(1 : Int) < 0)]
    refine ⟨{ d' with version := SCHEMA_VERSION }, ?_, rfl, ?_⟩
    · unfold apply_schema_migrations_on_conn
      rw [if_neg (by rw [hv]; unfold SCHEMA_VERSION; norm_num), hbody]
    · intro tc htc
      exact hcol tc htc
  · intro d hv
    unfold apply_schema_migrations_on_conn
    rw [if_pos (by rw [hv]; unfold SCHEMA_VERSION; norm_num)]

/-- Witness for C4 at a concrete store (the legacy layout missing the
migrated columns). -/
theorem schema_migration_monotonic_witness :
    (∃ d', apply_schema_migrations_on_conn
        { tables := [("providers", ["id"]), ("provider_endpoints", ["id"]),
          ("mcp_servers", ["id"]), ("prompts", ["id"]), ("skills", ["key"]),
          ("skill_repos", ["owner"])], version := 0 } = (d', .ok ()) ∧
      d'.version = SCHEMA_VERSION ∧
      ∀ tc ∈ migrationV0Columns, hasColumnB d' tc.1 tc.2.1 = true) ∧
    apply_schema_migrations_on_conn { tables := defaultTables, version := 2 } =
      ({ tables := defaultTables, version := 2 },
        .error "Database version too new") :=
  ⟨schema_migration_monotonic.1
      { tables := [("providers", ["id"]), ("provider_endpoints", ["id"]),
        ("mcp_servers", ["id"]), ("prompts", ["id"]), ("skills", ["key"]),
        ("skill_repos", ["owner"])], version := 0 }
      (by norm_num) (by unfold SCHEMA_VERSION; norm_num) (by decide),
    schema_migration_monotonic.2 { tables := defaultTables, version := 2 } rfl⟩

/-! ## Backup and import lemmas -/

theorem length_insertB (x : BackupFile) (l : List BackupFile) :
    (insertB x l).length = l.length + 1 := by
  induction l with
  | nil => rfl
  | cons y ys ih =>
    unfold insertB
    by_cases h : x.mtime ≤ y.mtime
    · rw [if_pos h]
      rfl
    · rw [if_neg h]
      simp [ih]

theorem length_sortB (l : List BackupFile) : (sortB l).length = l.length := by
  induction l with
  | nil => rfl
  | cons y ys ih =>
    show (insertB y (sortB ys)).length = ys.length + 1
    rw [length_insertB, ih]

theorem insertB_append_last (x y : BackupFile) (s : List BackupFile)
    (h : y.mtime ≤ x.mtime) : insertB y (s ++ [x]) = insertB y s ++ [x] := by
  induction s with
  | nil =>
    show insertB y [x] = [y, x]
    unfold insertB
    rw [if_pos h]
  | cons z zs ih =>
    show insertB y (z :: (zs ++ [x])) = insertB y (z :: zs) ++ [x]
    unfold insertB
    by_cases hz : y.mtime ≤ z.mtime
    · simp only [if_pos hz]
      rfl
    · simp only [if_neg hz]
      rw [ih]
      rfl

theorem sortB_append_max (l : List BackupFile) (x : BackupFile)
    (h : ∀ b ∈ l, b.mtime ≤ x.mtime) :
    sortB (l ++ [x]) = sortB l ++ [x] := by
  induction l with
  | nil => rfl
  | cons y ys ih =>
    show insertB y (sortB (ys ++ [x])) = insertB y (sortB ys) ++ [x]
    rw [ih (fun b hb => h b (List.mem_cons_of_mem _ hb))]
    exact insertB_append_last x y (sortB ys) (h y (List.mem_cons_self _ _))

/-- The freshly created backup (strictly newest mtime) survives the
cleanup of old backups. -/
theorem cleanup_keeps_newest (l : List BackupFile) (x : BackupFile)
    (h : ∀ b ∈ l, b.mtime ≤ x.mtime) :
    x ∈ cleanup_db_backups (l ++ [x]) := by
  unfold cleanup_db_backups
  by_cases hle : (l ++ [x]).length ≤ DB_BACKUP_RETAIN
  · rw [if_pos hle]
    exact List.mem_append_right l (List.mem_singleton.mpr rfl)
  · rw [if_neg hle]
    rw [sortB_append_max l x h]
    have hrc : (l ++ [x]).length - DB_BACKUP_RETAIN ≤ (sortB l).length := by
      rw [length_sortB]
      simp only [List.length_append, List.length_singleton]
      unfold DB_BACKUP_RETAIN
      omega
    rw [List.drop_append_of_le_length hrc]
    exact List.mem_append_right _ (List.mem_singleton.mpr rfl)

/-- Behaviour of `backup_database_file` when the live database exists
and all old backups carry older timestamps. -/
theorem backup_database_file_spec (st : SysState) (ldb : Db)
    (hl : st.live = some ldb) (hfresh : ∀ b ∈ st.backups, b.mtime ≤ st.now) :
    (backup_database_file st).1.live = st.live ∧
    (backup_database_file st).2 = some st.now ∧
    ({ mtime := st.now, content := ldb } : BackupFile) ∈ (backup_database_file st).1.backups := by
  unfold backup_database_file
  rw [hl]
  dsimp only
  refine ⟨rfl, rfl, ?_⟩
  exact cleanup_keeps_newest st.backups _ (fun b hb => hfresh b hb)

/-- C5: SQL-import sanity check and atomicity.  First part: when the
replayed SQL (after table creation and migrations) leaves both primary
resource tables empty, `import_sql` fails with the sanity-check error,
the live database is unchanged, and the pre-import backup taken at the
start of the run is among the surviving backup files.  Second part:
whenever `import_sql` succeeds, the file executed cleanly, the sanity
check passed, the scratch database was copied over the live one, and
the pre-import backup id was returned. -/
theorem import_sql_sanity_atomicity :
    (∀ (st : SysState) (ldb db : Db),
      st.live = some ldb →
      (∀ b ∈ st.backups, b.mtime ≤ st.now) →
      (apply_schema_migrations_db (create_tables_db db)).2 = .ok () →
      (apply_schema_migrations_db (create_tables_db db)).1.providersCount = 0 →
      (apply_schema_migrations_db (create_tables_db db)).1.mcpCount = 0 →
      (import_sql st (.good db)).1.live = st.live ∧
      (import_sql st (.good db)).2 =
        .error "Imported SQL does not contain valid provider or MCP data" ∧
      ({ mtime := st.now, content := ldb } : BackupFile) ∈ (import_sql st (.good db)).1.backups) ∧
    (∀ (st : SysState) (file : SqlFile) (res : SysState) (idOpt : Option Nat),
      import_sql st file = (res, .ok idOpt) →
      ∃ db, file = .good db ∧
        validate_basic_state (apply_schema_migrations_db (create_tables_db db)).1 = .ok () ∧
        res = { (backup_database_file st).1 with
          live := some (apply_schema_migrations_db (create_tables_db db)).1 } ∧
        idOpt = (backup_database_file st).2) := by
  constructor
  · intro st ldb db hl hfresh hm hp hq
    have hb := backup_database_file_spec st ldb hl hfresh
    have hv : validate_basic_state (apply_schema_migrations_db (create_tables_db db)).1 =
        .error "Imported SQL does not contain valid provider or MCP data" := by
      unfold validate_basic_state
      rw [hp, hq]
      rfl
    unfold import_sql
    dsimp only
    rw [hm, hv]
    dsimp only
    exact ⟨hb.1, rfl, hb.2.2⟩
  · intro st file res idOpt h
    cases file with
    | missing =>
      unfold import_sql at h
      simp at h
    | bad e =>
      unfold import_sql at h
      dsimp only at h
      rw [Prod.mk.injEq] at h
      exact Except.noConfusion h.2
    | good db =>
      unfold import_sql at h
      dsimp only at h
      cases hm : (apply_schema_migrations_db (create_tables_db db)).2 with
      | error e =>
        rw [hm] at h
        dsimp only at h
        rw [Prod.mk.injEq] at h
        exact Except.noConfusion h.2
      | ok u =>
        cases u
        rw [hm] at h
        dsimp only at h
        cases hv : validate_basic_state (apply_schema_migrations_db (create_tables_db db)).1 with
        | error e =>
          rw [hv] at h
          dsimp only at h
          rw [Prod.mk.injEq] at h
          exact Except.noConfusion h.2
        | ok u =>
          cases u
          rw [hv] at h
          dsimp only at h
          rw [Prod.mk.injEq] at h
          obtain ⟨h1, h2⟩ := h
          injection h2 with h2
          exact ⟨db, rfl, hv, h1.symm, h2.symm⟩

/-- Witness for C5 at a concrete filesystem state: a corrupt import is
rejected with the live database intact and the fresh backup retained; a
valid import succeeds, stores the migrated scratch database and returns
the backup id. -/
theorem import_sql_sanity_atomicity_witness :
    ((import_sql wSysSt (.good wDbEmpty)).1.live = wSysSt.live ∧
      (import_sql wSysSt (.good wDbEmpty)).2 =
        .error "Imported SQL does not contain valid provider or MCP data" ∧
      ({ mtime := wSysSt.now, content := wDbLive } : BackupFile) ∈
        (import_sql wSysSt (.good wDbEmpty)).1.backups) ∧
    (∃ db, SqlFile.good wDbGood = .good db ∧
      validate_basic_state (apply_schema_migrations_db (create_tables_db db)).1 = .ok () ∧
      (import_sql wSysSt (.good wDbGood)).1 = { (backup_database_file wSysSt).1 with
        live := some (apply_schema_migrations_db (create_tables_db db)).1 } ∧
      some 5 = (backup_database_file wSysSt).2) :=
  ⟨import_sql_sanity_atomicity.1 wSysSt wDbLive wDbEmpty rfl (by decide) rfl rfl rfl,
    import_sql_sanity_atomicity.2 wSysSt (.good wDbGood)
      (import_sql wSysSt (.good wDbGood)).1 (some 5) rfl⟩

end CliHub
